import Mathlib

/-!
Verification of the routing and itinerary-assembly engine of `path_finder.py`
(repository D-Katt/Connection_flights).

The embedding models all points in time as integer minutes:
* an absolute instant on the running clock of an itinerary is `Int` minutes
  (Python `timedelta`, which in this program always holds whole minutes);
* a time of day is minutes since midnight, a weekday is `1..7`.

The network graph (`routes` in the source, a `defaultdict(dict)` from city to
`{neighbour: flight_duration}`) is an association list preserving insertion
order; the timetable (`flights`, a `pandas.DataFrame` sorted by
`city_from, city_to, week_day, time`) is a list of `Flight` rows.

A Python run-time error (`KeyError` on a missing dictionary key,
`IndexError` on `.iloc[0]` of an empty frame) is modelled as `none`;
all functions that can hit one return `Option`.
-/

namespace PathFinder

/-- The network graph: for each city, its neighbours with flight durations
in minutes (`routes` in the source). -/
abbrev Routes := List (String × List (String × Int))

/-- One row of the `flights` table: departure city, arrival city, weekday
(1..7 in well-formed data), departure time of day in minutes, price. -/
structure Flight where
  city_from : String
  city_to : String
  week_day : Int
  time : Int
  price : Int
deriving DecidableEq

/-- One element of the list built by `find_flights`: the formatted leg
descriptions, the accumulated price, and the total travel time in minutes
(the source interpolates the latter two into the final display string). -/
structure Itinerary where
  legs : String
  price : Int
  travel : Int
deriving DecidableEq

/-- Neighbour dictionary of a city; `routes[c]` on a `defaultdict(dict)`
yields `{}` for an unknown city, hence the `[]` default. -/
def neighborList (routes : Routes) (c : String) : List (String × Int) :=
  match routes.find? (fun pr => pr.1 == c) with
  | none => []
  | some pr => pr.2

/-- Iteration order of `routes[c]` in the BFS (`for neigh_v in routes[cur_v]`). -/
def neighborNames (routes : Routes) (c : String) : List String :=
  (neighborList routes c).map Prod.fst

/-- Membership test, Python `c in routes`. -/
def hasKey (routes : Routes) (c : String) : Bool :=
  routes.any (fun pr => pr.1 == c)

/-- Lookup `routes[a][b]`; `none` models the `KeyError` raised when the inner
dictionary has no entry for `b`. -/
def lookupDur (routes : Routes) (a b : String) : Option Int :=
  match (neighborList routes a).find? (fun pr => pr.1 == b) with
  | none => none
  | some pr => some pr.2

/-- The `week_days` dictionary (weekday number to Russian name). -/
def week_days (d : Int) : String :=
  if d = 1 then "Понедельник"
  else if d = 2 then "Вторник"
  else if d = 3 then "Среда"
  else if d = 4 then "Четверг"
  else if d = 5 then "Пятница"
  else if d = 6 then "Суббота"
  else if d = 7 then "Воскресенье"
  else ""

/-- Python two-digit zero-padded integer formatting. -/
def format02 (n : Int) : String :=
  if n < 10 then "0" ++ toString n else toString n

/-- Function `timedelta_to_day_hour_minutes`: split a running instant into
(weekday, hours, minutes).  `t / 1440` is Python `timedelta.days`
(floor division) and `t % 1440 * 60` is `timedelta.seconds`; Lean's `Int`
division and modulus are Euclidean, which for the positive divisors used
here agree with Python's floor semantics. -/
def timedelta_to_day_hour_minutes (t : Int) : Int × Int × Int :=
  let week_day := t / 1440
  let week_day := if week_day > 7 then week_day % 7 else week_day
  let seconds := t % 1440 * 60
  let hours := seconds / 3600
  let hours := if hours > 24 then hours % 24 else hours
  let minutes := seconds / 60 % 60
  (week_day, hours, minutes)

/-- Function `timedelta_to_formatted_string`: format the time-of-day part as `hh:mm`. -/
def timedelta_to_formatted_string (td : Int) : String :=
  let time_seconds := td % 1440 * 60
  let hours := time_seconds / 3600
  let minutes := time_seconds / 60 % 60
  format02 hours ++ ":" ++ format02 minutes

/-- Rows of the timetable for the directed pair `(origin, destination)`,
in table order (`flights[(flights['city_from'] == ...) & ...]`). -/
def pairFlights (flights : List Flight) (origin_city destination_city : String) :
    List Flight :=
  flights.filter (fun f => f.city_from == origin_city && f.city_to == destination_city)

/-- The same-week selection of the resolver, applied to the pair subset at
the already-normalised instant `u`: rows whose weekday is at least the
current weekday AND whose time of day is at least the current time of day
(the componentwise conjunction the source builds with pandas masks). -/
def sameWeek (flights : List Flight) (origin_city destination_city : String) (u : Int) :
    List Flight :=
  (pairFlights flights origin_city destination_city).filter
    (fun f => decide ((timedelta_to_day_hour_minutes u).1 ≤ f.week_day) &&
      decide ((timedelta_to_day_hour_minutes u).2.1 * 60 +
        (timedelta_to_day_hour_minutes u).2.2 ≤ f.time))

/-- Function `find_nearest_flight`: find the connecting flight for the directed pair,
honouring the 3-hour minimum transfer, returning the formatted leg string,
the advanced running instant and the accumulated price.  `none` models the
`IndexError` on `options.iloc[0]` when the pair has no flights at all, and
the `KeyError` on `routes[origin][destination]` when the edge is missing. -/
def find_nearest_flight (routes : Routes) (flights : List Flight)
    (origin_city destination_city : String) (time_pos : Int) (total_price : Int) :
    Option (String × Int × Int) :=
  let time_pos := time_pos + 180
  let n := timedelta_to_day_hour_minutes time_pos
  let day := n.1
  let hours := n.2.1
  let minutes := n.2.2
  let same_week := sameWeek flights origin_city destination_city time_pos
  let options := if same_week.length > 0 then same_week
    else pairFlights flights origin_city destination_city
  match options with
  | [] => none
  | flight :: _ =>
    let flight_day := flight.week_day
    let flight_time := flight.time
    let price := flight.price
    let display_time := timedelta_to_formatted_string flight_time
    let connection_flight := " " ++ origin_city ++ " " ++ week_days flight_day ++ " " ++ display_time
    let total_price := total_price + price
    let gap := flight_day * 1440 + flight_time - (day * 1440 + hours * 60 + minutes)
    let gap := if same_week.length = 0 then gap + 7 * 1440 else gap
    let time_pos := time_pos + gap
    match lookupDur routes origin_city destination_city with
    | none => none
    | some dur => some (connection_flight, time_pos + dur, total_price)

/-- The `while pos < len(cities)` loop of `find_flights`: resolve every leg
after the first, threading the running instant, the price and the display
string.  A failure of the resolver aborts the whole computation, exactly as
the uncaught Python exception would. -/
def find_flights_legs (routes : Routes) (flights : List Flight) :
    String → List String → Int → Int → String → Option (String × Int × Int)
  | _, [], time_since_start, price, acc => some (acc, time_since_start, price)
  | city_from, city_to :: rest, time_since_start, price, acc =>
    match find_nearest_flight routes flights city_from city_to time_since_start price with
    | none => none
    | some (connection_flight, time', price') =>
      find_flights_legs routes flights city_to rest time' price' (acc ++ connection_flight)

/-- One iteration of the `for index in range(len(start_options))` loop of
`find_flights`: build the itinerary that starts with first-leg row `f`. -/
def find_flights_option (routes : Routes) (flights : List Flight)
    (city_from city_to : String) (rest : List String) (f : Flight) : Option Itinerary :=
  let this_option_price := f.price
  let day := f.week_day
  let time_seconds := f.time % 1440 * 60
  let hours := time_seconds / 3600
  let minutes := time_seconds / 60 % 60
  let display_day := week_days day
  let display_time := format02 hours ++ ":" ++ format02 minutes
  let this_option_flights := city_from ++ " " ++ display_day ++ " " ++ display_time
  let start_time := day * 1440 + hours * 60 + minutes
  match lookupDur routes city_from city_to with
  | none => none
  | some flight_duration =>
    let time_since_start := start_time + flight_duration
    match find_flights_legs routes flights city_to rest time_since_start
        this_option_price this_option_flights with
    | none => none
    | some (desc, time_end, price_end) =>
      some { legs := desc, price := price_end, travel := time_end - start_time }

/-- Iterate `find_flights_option` over all first-leg candidates in table
order; any uncaught failure aborts the whole call. -/
def find_flights_all (routes : Routes) (flights : List Flight)
    (city_from city_to : String) (rest : List String) :
    List Flight → Option (List Itinerary)
  | [] => some []
  | f :: fs =>
    match find_flights_option routes flights city_from city_to rest f with
    | none => none
    | some it =>
      match find_flights_all routes flights city_from city_to rest fs with
      | none => none
      | some l => some (it :: l)

/-- Function `find_flights(cities)`: one itinerary per departure option of the first
leg; `none` models any uncaught exception (fewer than two cities, a pair
with no timetable rows on a later leg, a missing edge duration). -/
def find_flights (routes : Routes) (flights : List Flight) (cities : List String) :
    Option (List Itinerary) :=
  match cities with
  | city_from :: city_to :: rest =>
    find_flights_all routes flights city_from city_to rest
      (pairFlights flights city_from city_to)
  | _ => none

/-- The `total_time_on_board` accumulation: sum of `routes[a][b]` over the
consecutive pairs of a path (`none` if an edge is missing). -/
def airborneTime (routes : Routes) : List String → Option Int
  | a :: b :: rest =>
    match lookupDur routes a b, airborneTime routes (b :: rest) with
    | some d, some t => some (d + t)
    | _, _ => none
  | _ => some 0

/-- Every consecutive directed pair of the path has at least one timetable
row and an edge duration (so every resolver call can succeed). -/
def pairsOk (routes : Routes) (flights : List Flight) : List String → Bool
  | a :: b :: rest =>
    !(pairFlights flights a b).isEmpty && (lookupDur routes a b).isSome
      && pairsOk routes flights (b :: rest)
  | _ => true

/-- The body of `for neigh_v in routes[cur_v]` in the module-level BFS:
record distance and parent of each still-unvisited neighbour and enqueue it;
`break` with `path_exists = True` as soon as the target is discovered.
State is (`n_routes`, `parents`, queue, `path_exists`). -/
def visitNeighbors (end_vertex : String) (cur_dist : Nat) (cur_v : String) :
    List String → (String → Option Nat) → (String → Option String) → List String →
    (String → Option Nat) × (String → Option String) × List String × Bool
  | [], n_routes, parents, queue => (n_routes, parents, queue, false)
  | neigh_v :: rest, n_routes, parents, queue =>
    if n_routes neigh_v = none then
      let n_routes' := fun v => if v = neigh_v then some (cur_dist + 1) else n_routes v
      let parents' := fun v => if v = neigh_v then some cur_v else parents v
      let queue' := queue ++ [neigh_v]
      if neigh_v = end_vertex then (n_routes', parents', queue', true)
      else visitNeighbors end_vertex cur_dist cur_v rest n_routes' parents' queue'
    else visitNeighbors end_vertex cur_dist cur_v rest n_routes parents queue

/-- The `while queue and not path_exists` loop of the BFS.  The fuel
argument only bounds the number of dequeues; `routes.length` dequeues
always suffice (each vertex is enqueued at most once), so the `none`
branch is unreachable from `find_path`'s initial state. -/
def bfsLoop (routes : Routes) (end_vertex : String) :
    Nat → (String → Option Nat) → (String → Option String) → List String →
    Option ((String → Option Nat) × (String → Option String) × Bool)
  | 0, n_routes, parents, queue =>
    match queue with
    | [] => some (n_routes, parents, false)
    | _ :: _ => none
  | fuel + 1, n_routes, parents, queue =>
    match queue with
    | [] => some (n_routes, parents, false)
    | cur_v :: queue_rest =>
      let cur_dist := (n_routes cur_v).getD 0
      let r := visitNeighbors end_vertex cur_dist cur_v (neighborNames routes cur_v)
        n_routes parents queue_rest
      if r.2.2.2 then some (r.1, r.2.1, true)
      else bfsLoop routes end_vertex fuel r.1 r.2.1 r.2.2.1

/-- The `while not parent is None` reconstruction loop: walk parent
pointers from the target back to the start, accumulating the path (later
reversed) and `total_time_on_board`.  Fuel bounds the chain length; the
recorded distance of the target always fits under `routes.length`. -/
def walkParents (routes : Routes) (parents : String → Option String) :
    Nat → String → List String → Int → Option (List String × Int)
  | fuel, next_city, path, total =>
    match parents next_city with
    | none => some (path.reverse, total)
    | some parent =>
      match fuel with
      | 0 => none
      | fuel' + 1 =>
        match lookupDur routes parent next_city with
        | none => none
        | some dur =>
          walkParents routes parents fuel' parent (path ++ [parent]) (total + dur)

/-- Contract `find_path(graph, start, end)` of the spec: the module-level search of
the source made into a function.  `none` is the printed
no-route message outcome (either city absent, or the BFS
exhausts its queue without reaching the target). -/
def find_path (routes : Routes) (start_vertex end_vertex : String) :
    Option (List String) :=
  if !hasKey routes start_vertex || !hasKey routes end_vertex then none
  else
    let n_routes : String → Option Nat := fun v => if v = start_vertex then some 0 else none
    let parents : String → Option String := fun _ => none
    match bfsLoop routes end_vertex routes.length n_routes parents [start_vertex] with
    | none => none
    | some (_, parents', path_exists) =>
      if path_exists then
        match walkParents routes parents' routes.length end_vertex [end_vertex] 0 with
        | none => none
        | some (path, _) => some path
      else none

/-- Adjacency: `v` is listed among the neighbours of `u`. -/
def adjB (routes : Routes) (u v : String) : Bool :=
  (neighborNames routes u).contains v

/-- Consecutive elements of the list are adjacent in the graph. -/
def chainB (routes : Routes) : List String → Bool
  | a :: b :: rest => adjB routes a b && chainB routes (b :: rest)
  | _ => true

/-- Walk predicate: `p` is a walk in the graph from `s` to `e` (its length is hop count + 1). -/
def PathFrom (routes : Routes) (s e : String) (p : List String) : Prop :=
  p.head? = some s ∧ p.getLast? = some e ∧ chainB routes p = true

instance (routes : Routes) (s e : String) (p : List String) :
    Decidable (PathFrom routes s e p) :=
  inferInstanceAs (Decidable (_ ∧ _ ∧ _))

/-- Every listed neighbour is itself a key of the graph — the source's
precondition (its generator always inserts both directions of an edge);
on graphs violating it the Python BFS dies with a `KeyError`. -/
def Closed (routes : Routes) : Prop :=
  ∀ pr ∈ routes, ∀ nb ∈ pr.2, hasKey routes nb.1 = true

instance (routes : Routes) : Decidable (Closed routes) :=
  inferInstanceAs (Decidable (∀ pr ∈ routes, ∀ nb ∈ pr.2, hasKey routes nb.1 = true))

/-- Order on timetable rows used by the sort precondition of the resolver:
earlier weekday, or same weekday and no-later time of day. -/
def flightLe (f g : Flight) : Prop :=
  f.week_day < g.week_day ∨ (f.week_day = g.week_day ∧ f.time ≤ g.time)

instance : DecidableRel flightLe :=
  fun _ _ => inferInstanceAs (Decidable (_ ∨ _))

/-! ### Concrete fixtures used by counterexamples and witnesses -/

/-- Graph A–B (2h), B–C (3h) of the end-to-end scenario. -/
def routesE2E : Routes :=
  [("A", [("B", 120)]), ("B", [("A", 120), ("C", 180)]), ("C", [("B", 180)])]

/-- Timetable of the end-to-end scenario: A→B Mon 08:00 (100),
B→C Mon 12:00 (150), B→C Mon 20:00 (140); sorted. -/
def flightsE2E : List Flight :=
  [⟨"A", "B", 1, 480, 100⟩, ⟨"B", "C", 1, 720, 150⟩, ⟨"B", "C", 1, 1200, 140⟩]

/-- Pair B→C with flights Tue 08:00 (150) and Tue 14:00 (140); sorted. -/
def flightsTue : List Flight :=
  [⟨"B", "C", 2, 480, 150⟩, ⟨"B", "C", 2, 840, 140⟩]

/-- Edge B–C of duration 3h. -/
def routesBC : Routes := [("B", [("C", 180)]), ("C", [("B", 180)])]

/-- Edge B–C of duration 1h. -/
def routesBC1 : Routes := [("B", [("C", 60)]), ("C", [("B", 60)])]

/-- Pair B→C with a single flight, Wed 02:00 (50). -/
def flightsWed : List Flight := [⟨"B", "C", 3, 120, 50⟩]

/-- Pair B→C with a single flight, Mon 05:00 (99). -/
def flightsMon : List Flight := [⟨"B", "C", 1, 300, 99⟩]

/-- Path A–B–C whose leg B→C has no timetable rows at all. -/
def flightsABonly : List Flight := [⟨"A", "B", 1, 480, 100⟩]

/-- Two-vertex graph A–B. -/
def routesAB : Routes := [("A", [("B", 60)]), ("B", [("A", 60)])]

/-- Two-vertex graph X–Y. -/
def routesXY : Routes := [("X", [("Y", 60)]), ("Y", [("X", 60)])]

/-- Graph with a direct edge A–B and a detour A–C–B. -/
def routesTri : Routes :=
  [("A", [("B", 10), ("C", 10)]), ("B", [("A", 10), ("C", 10)]),
   ("C", [("A", 10), ("B", 10)])]

/-- Edge A–B of duration 50 with a single flight A→B Mon 00:00 (10). -/
def routesW7 : Routes := [("A", [("B", 50)]), ("B", [("A", 50)])]

/-- Single flight A→B Mon 00:00 price 10. -/
def flightsW7 : List Flight := [⟨"A", "B", 1, 0, 10⟩]

/-! ### Invariants of the BFS loop -/

/-- The distance map records exact hop distances: every recorded value is
realised by a walk from the start and no shorter walk exists. -/
def ExactDist (routes : Routes) (s : String) (d : String → Option Nat) : Prop :=
  ∀ v n, d v = some n →
    (∃ p, PathFrom routes s v p ∧ p.length = n + 1) ∧
    (∀ p, PathFrom routes s v p → n + 1 ≤ p.length)

/-- Parent pointers are consistent with the distance map: the start has
distance 0 and no parent, every parent edge is a graph edge dropping the
distance by one, and every discovered non-start vertex has a parent. -/
def ParentInv (routes : Routes) (s : String) (d : String → Option Nat)
    (par : String → Option String) : Prop :=
  d s = some 0 ∧ par s = none ∧
  (∀ v u, par v = some u →
    adjB routes u v = true ∧ ∃ m, d u = some m ∧ d v = some (m + 1)) ∧
  (∀ v n, d v = some (n + 1) → ∃ u, par v = some u)

/-- The queue holds (in order) vertices of some level `k` followed by
vertices of level `k + 1`. -/
def QueueLevels (d : String → Option Nat) (q : List String) : Prop :=
  ∃ k q1 q2, q = q1 ++ q2 ∧ (∀ v ∈ q1, d v = some k) ∧ (∀ v ∈ q2, d v = some (k + 1))

/-- Every discovered vertex that already left the queue has had all its
neighbours discovered. -/
def ScanComplete (routes : Routes) (d : String → Option Nat) (q : List String) : Prop :=
  ∀ u, (d u).isSome = true → u ∉ q →
    ∀ v ∈ neighborNames routes u, (d v).isSome = true

/-- Every discovered vertex is a key of the graph. -/
def DiscoveredKeys (routes : Routes) (d : String → Option Nat) : Prop :=
  ∀ v, (d v).isSome = true → hasKey routes v = true

/-- Full invariant of the BFS state while the target has not been found. -/
def BfsInv (routes : Routes) (s e : String) (d : String → Option Nat)
    (par : String → Option String) (q : List String) : Prop :=
  ExactDist routes s d ∧ ParentInv routes s d par ∧ QueueLevels d q ∧
  ScanComplete routes d q ∧ DiscoveredKeys routes d ∧ (e ≠ s → d e = none)

/-- What holds of the state returned by the BFS loop. -/
def BfsPost (routes : Routes) (s e : String)
    (res : (String → Option Nat) × (String → Option String) × Bool) : Prop :=
  ExactDist routes s res.1 ∧ ParentInv routes s res.1 res.2.1 ∧
  (res.2.2 = true → (res.1 e).isSome = true) ∧
  (res.2.2 = false → (e ≠ s → res.1 e = none) ∧ ScanComplete routes res.1 [])

/-- The set of keys of the graph. -/
def keysFinset (routes : Routes) : Finset String :=
  (routes.map Prod.fst).toFinset

/-- Dequeues still possible: undiscovered keys plus queued vertices.
Strictly decreases at every iteration of the BFS loop. -/
def bfsMeasure (routes : Routes) (d : String → Option Nat) (q : List String) : Nat :=
  ((keysFinset routes).card -
    ((keysFinset routes).filter (fun v => (d v).isSome = true)).card) + q.length

/-- The leg chain starting at `cf` reaches, after a prefix of serviceable
legs, a leg whose directed pair has no timetable rows at all — the
situation in which `find_nearest_flight` hits `options.iloc[0]` on an
empty frame. -/
inductive LegsCrash (routes : Routes) (flights : List Flight) : String → List String → Prop
  | here (cf ct : String) (rest : List String) :
      pairFlights flights cf ct = [] → LegsCrash routes flights cf (ct :: rest)
  | there (cf ct : String) (rest : List String) (dur : Int) :
      pairFlights flights cf ct ≠ [] → lookupDur routes cf ct = some dur →
      LegsCrash routes flights ct rest → LegsCrash routes flights cf (ct :: rest)

/-! ## Arithmetic facts about the normalisation -/

/-- Bounds of `timedelta_to_day_hour_minutes`: the weekday component never
exceeds 7 and the hour/minute components encode exactly the time of day
`t % 1440`. -/
theorem timedelta_norm_facts (t : Int) :
    (timedelta_to_day_hour_minutes t).1 ≤ 7 ∧
    (timedelta_to_day_hour_minutes t).2.1 * 60 + (timedelta_to_day_hour_minutes t).2.2 =
      t % 1440 ∧
    0 ≤ t % 1440 ∧ t % 1440 < 1440 := by
  simp only [timedelta_to_day_hour_minutes]
  split_ifs <;> omega

/-! ## C5: the normalisation of weekday overflow -/

/-- C5, counterexample: a running position of exactly 14 days has day count
`14 ≥ 1`, yet the normalised weekday is `0`, outside the claimed range
`1..7` (`14 > 7` triggers `% 7`, which yields `0`). -/
theorem timedelta_weekday_escapes_range :
    (1 : Int) ≤ 20160 / 1440 ∧ (timedelta_to_day_hour_minutes 20160).1 = 0 := by
  decide

/-- C5 (amended): for every running position whose day count is at least 1
and is not a multiple of 7 greater than 7 (that is, the day count is at
most 7 or not divisible by 7), `timedelta_to_day_hour_minutes` yields a
weekday in `1..7` and an hour in `0..23`; the excluded day counts
`14, 21, ...` wrap to weekday `0` instead. -/
theorem timedelta_weekday_in_range (t : Int) (h1 : 1 ≤ t / 1440)
    (h2 : t / 1440 ≤ 7 ∨ t / 1440 % 7 ≠ 0) :
    1 ≤ (timedelta_to_day_hour_minutes t).1 ∧ (timedelta_to_day_hour_minutes t).1 ≤ 7 ∧
    0 ≤ (timedelta_to_day_hour_minutes t).2.1 ∧ (timedelta_to_day_hour_minutes t).2.1 < 24 := by
  simp only [timedelta_to_day_hour_minutes]
  split_ifs <;> omega

/-- Witness for the amended C5 at `t = 2000` (day count 1, time 09:20). -/
theorem timedelta_weekday_in_range_witness :
    ((1 : Int) ≤ 2000 / 1440 ∧ ((2000 : Int) / 1440 ≤ 7 ∨ (2000 : Int) / 1440 % 7 ≠ 0)) ∧
    (1 ≤ (timedelta_to_day_hour_minutes 2000).1 ∧
      (timedelta_to_day_hour_minutes 2000).1 ≤ 7 ∧
      0 ≤ (timedelta_to_day_hour_minutes 2000).2.1 ∧
      (timedelta_to_day_hour_minutes 2000).2.1 < 24) :=
  ⟨by decide, timedelta_weekday_in_range 2000 (by decide) (by decide)⟩

/-! ## C1: the same-week window is a componentwise filter, not a
lexicographic one -/

/-- C1: with B→C flights on Tuesday 08:00 (price 150) and Tuesday 14:00
(price 140), sorted, and arrival Monday 10:00 (so earliest allowed is
Monday 13:00, i.e. day 1, 780 minutes), the first timetable row — Tuesday
08:00 — is already lexicographically at-or-after the earliest-allowed
stamp, yet `find_nearest_flight` skips it (its time of day 480 fails the
componentwise `time >= 13:00` test) and books Tuesday 14:00, price 140:
the returned running instant 3900 is Tuesday 14:00 (3720) plus the 3-hour
flight duration. -/
theorem same_week_filter_skips_earlier_time :
    timedelta_to_day_hour_minutes (2040 + 180) = (1, 13, 0) ∧
    (pairFlights flightsTue "B" "C").head? = some ⟨"B", "C", 2, 480, 150⟩ ∧
    ((1 : Int) < 2 ∨ ((1 : Int) = 2 ∧ (780 : Int) ≤ 480)) ∧
    find_nearest_flight routesBC flightsTue "B" "C" 2040 0 =
      some (" B Вторник 14:00", 3900, 140) := by
  decide

/-! ## C6: monotonicity of the resolver fails -/

/-- C6: with a single B→C flight on Wednesday 02:00, moving the arrival
instant later (Monday 20:00 → Monday 22:00) moves the booked departure a
week earlier: the first call wraps to the next cycle (running instant
14580, departure 14520), the second call books the same flight in the
current week (running instant 4500, departure 4440).  The resolver is not
monotone in its arrival argument. -/
theorem resolver_not_monotone :
    (2640 : Int) < 2760 ∧
    (find_nearest_flight routesBC1 flightsWed "B" "C" 2640 0).map (fun r => r.2.1) =
      some 14580 ∧
    (find_nearest_flight routesBC1 flightsWed "B" "C" 2760 0).map (fun r => r.2.1) =
      some 4500 ∧
    (4500 : Int) < 14580 := by
  decide

/-! ## C9: the end-to-end scenario -/

/-- C9: on the A–B (2h) / B–C (3h) graph with the three-row timetable,
the query from A to C finds the path A,B,C; the single itinerary departs
Monday 08:00 (arriving B at Monday 10:00, earliest allowed Monday 13:00),
books B→C Monday 20:00, and totals price 240, airborne 300 minutes (5h),
elapsed 900 minutes (15h). -/
theorem end_to_end_scenario :
    find_path routesE2E "A" "C" = some ["A", "B", "C"] ∧
    timedelta_to_day_hour_minutes (1 * 1440 + 480 + 120 + 180) = (1, 13, 0) ∧
    find_flights routesE2E flightsE2E ["A", "B", "C"] =
      some [⟨"A Понедельник 08:00 B Понедельник 20:00", 240, 900⟩] ∧
    airborneTime routesE2E ["A", "B", "C"] = some 300 := by
  decide

/-! ## C4: a leg with no flights crashes the whole call -/

/-- C4, counterexample: on path A,B,C with one A→B flight and no B→C
rows at all, `find_flights` aborts with no result (the uncaught
`IndexError` of `options.iloc[0]`) instead of dropping the candidate and
returning a shorter (empty) list of options. -/
theorem no_flight_crashes_concrete :
    (pairFlights flightsABonly "A" "B").length = 1 ∧
    pairFlights flightsABonly "B" "C" = [] ∧
    find_flights routesE2E flightsABonly ["A", "B", "C"] = none := by
  decide

/-! ## C3 and C8: the degenerate query start = end -/

/-- C3, counterexample: in the triangle graph both "A" and "A" are keys
and "A" is reachable from itself (e.g. via the walk A,B,A), yet the query
returns the no-route outcome instead of a path: the start is marked
visited at distance 0 before the loop and the target test only fires on
newly discovered vertices. -/
theorem find_path_misses_reachable_self :
    hasKey routesTri "A" = true ∧ PathFrom routesTri "A" "A" ["A", "B", "A"] ∧
    find_path routesTri "A" "A" = none := by
  decide

/-- C8, counterexample: with "X" a key of the two-vertex graph, the
degenerate query X→X yields the no-route outcome, not the one-element
path. -/
theorem find_path_self_concrete :
    hasKey routesXY "X" = true ∧ find_path routesXY "X" "X" = none := by
  decide

/-- While the target is already discovered, scanning neighbours keeps it
discovered and can never raise the found flag (the flag only fires on a
vertex whose distance is still unset). -/
theorem visit_keeps_target (e : String) (c : Nat) (cur : String) :
    ∀ (ns : List String) (d : String → Option Nat) (par : String → Option String)
      (q : List String), (d e).isSome = true →
    ((visitNeighbors e c cur ns d par q).1 e).isSome = true ∧
    (visitNeighbors e c cur ns d par q).2.2.2 = false := by
  intro ns
  induction ns with
  | nil =>
    intro d par q h
    simpa [visitNeighbors] using h
  | cons n rest ih =>
    intro d par q h
    by_cases hn : d n = none
    · have hne : n ≠ e := by
        rintro rfl
        rw [hn] at h
        simp at h
      have h' : ((fun v => if v = n then some (c + 1) else d v) e).isSome = true := by
        simp only [if_neg (Ne.symm hne)]
        exact h
      simpa only [visitNeighbors, hn, if_pos, if_neg hne, reduceIte] using
        ih (fun v => if v = n then some (c + 1) else d v)
          (fun v => if v = n then some cur else par v) (q ++ [n]) h'
    · simpa only [visitNeighbors, hn, reduceIte, if_neg hn] using ih d par q h

/-- While the target is already discovered the loop can only terminate
with the found flag down. -/
theorem bfsLoop_keeps_target (g : Routes) (e : String) :
    ∀ (fuel : Nat) (d : String → Option Nat) (par : String → Option String)
      (q : List String), (d e).isSome = true →
    ∀ res, bfsLoop g e fuel d par q = some res → res.2.2 = false := by
  intro fuel
  induction fuel with
  | zero =>
    intro d par q h res hres
    cases q with
    | nil =>
      simp only [bfsLoop] at hres
      cases hres
      rfl
    | cons cur rest => simp [bfsLoop] at hres
  | succ fuel ih =>
    intro d par q h res hres
    cases q with
    | nil =>
      simp only [bfsLoop] at hres
      cases hres
      rfl
    | cons cur rest =>
      have hv := visit_keeps_target e ((d cur).getD 0) cur (neighborNames g cur) d par rest h
      simp only [bfsLoop, hv.2, if_neg, Bool.false_eq_true, reduceIte] at hres
      exact ih _ _ _ hv.1 res hres

/-- C8 (amended): the degenerate query start = end always yields the
no-route outcome: the start is recorded at distance 0 before the loop and
the target test only fires on vertices not yet recorded, so `path_exists`
can never be raised; the resolver is never invoked.  This holds for every
graph, keys or not. -/
theorem find_path_self (g : Routes) (s : String) : find_path g s s = none := by
  unfold find_path
  split
  · rfl
  · cases hloop : bfsLoop g s g.length
      (fun v => if v = s then some 0 else none) (fun _ => none) [s] with
    | none => simp [hloop]
    | some res =>
      obtain ⟨d', par', flag⟩ := res
      have hflag : flag = false :=
        bfsLoop_keeps_target g s g.length _ _ _ (by simp) _ hloop
      subst hflag
      simp [hloop]

/-! ## Success and failure of the resolver -/

/-- Resolver evaluation when the same-week subset is nonempty: it books
the first row of that subset; the gap is the plain difference, with no
7-day wrap. -/
theorem find_nearest_flight_same_week_eq (routes : Routes) (flights : List Flight)
    (o dd : String) (t p : Int) (f : Flight) (tail : List Flight) (dur : Int)
    (hswl : sameWeek flights o dd (t + 180) = f :: tail)
    (hld : lookupDur routes o dd = some dur) :
    find_nearest_flight routes flights o dd t p =
      some (" " ++ o ++ " " ++ week_days f.week_day ++ " " ++
          timedelta_to_formatted_string f.time,
        t + 180 +
          (f.week_day * 1440 + f.time -
            ((timedelta_to_day_hour_minutes (t + 180)).1 * 1440 +
              (timedelta_to_day_hour_minutes (t + 180)).2.1 * 60 +
              (timedelta_to_day_hour_minutes (t + 180)).2.2)) + dur,
        p + f.price) := by
  simp [find_nearest_flight, hswl, hld]

/-- Resolver evaluation when the same-week subset is empty but the pair
has rows: it books the first row of the pair subset and adds a full
7-day period to the gap. -/
theorem find_nearest_flight_wrap_eq (routes : Routes) (flights : List Flight)
    (o dd : String) (t p : Int) (f : Flight) (tail : List Flight) (dur : Int)
    (hsw : sameWeek flights o dd (t + 180) = [])
    (hpl : pairFlights flights o dd = f :: tail)
    (hld : lookupDur routes o dd = some dur) :
    find_nearest_flight routes flights o dd t p =
      some (" " ++ o ++ " " ++ week_days f.week_day ++ " " ++
          timedelta_to_formatted_string f.time,
        t + 180 +
          (f.week_day * 1440 + f.time -
            ((timedelta_to_day_hour_minutes (t + 180)).1 * 1440 +
              (timedelta_to_day_hour_minutes (t + 180)).2.1 * 60 +
              (timedelta_to_day_hour_minutes (t + 180)).2.2) + 7 * 1440) + dur,
        p + f.price) := by
  simp [find_nearest_flight, hsw, hpl, hld]

/-- With no edge duration recorded, the resolver fails. -/
theorem find_nearest_flight_none_of_no_dur (routes : Routes) (flights : List Flight)
    (o dd : String) (t p : Int) (hld : lookupDur routes o dd = none) :
    find_nearest_flight routes flights o dd t p = none := by
  simp only [find_nearest_flight, hld]
  split <;> simp

/-- With no timetable rows for the pair, the resolver fails (the Python
code raises `IndexError` on `options.iloc[0]`). -/
theorem find_nearest_flight_none_of_empty (routes : Routes) (flights : List Flight)
    (o dd : String) (t p : Int) (h : pairFlights flights o dd = []) :
    find_nearest_flight routes flights o dd t p = none := by
  have hsw : sameWeek flights o dd (t + 180) = [] := by
    simp [sameWeek, h]
  simp [find_nearest_flight, hsw, h]

/-- With at least one row for the pair and the edge present in the graph,
the resolver always succeeds, whatever the arrival instant. -/
theorem find_nearest_flight_isSome (routes : Routes) (flights : List Flight)
    (o dd : String) (t p dur : Int)
    (hne : pairFlights flights o dd ≠ [])
    (hdur : lookupDur routes o dd = some dur) :
    (find_nearest_flight routes flights o dd t p).isSome = true := by
  cases hswl : sameWeek flights o dd (t + 180) with
  | cons f tail =>
    rw [find_nearest_flight_same_week_eq routes flights o dd t p f tail dur hswl hdur]
    rfl
  | nil =>
    cases hpl : pairFlights flights o dd with
    | nil => exact absurd hpl hne
    | cons f tail =>
      rw [find_nearest_flight_wrap_eq routes flights o dd t p f tail dur hswl hpl hdur]
      rfl

/-- A crashing leg chain makes the whole leg loop fail, whatever the
running state. -/
theorem find_flights_legs_crash (routes : Routes) (flights : List Flight) :
    ∀ cf rest, LegsCrash routes flights cf rest →
    ∀ t p acc, find_flights_legs routes flights cf rest t p acc = none := by
  intro cf rest h
  induction h with
  | here cf ct rest hemp =>
    intro t p acc
    simp [find_flights_legs,
      find_nearest_flight_none_of_empty routes flights cf ct t p hemp]
  | there cf ct rest dur hne hdur hcrash ih =>
    intro t p acc
    have hs := find_nearest_flight_isSome routes flights cf ct t p dur hne hdur
    obtain ⟨r, hr⟩ := Option.isSome_iff_exists.mp hs
    obtain ⟨s1, t1, p1⟩ := r
    simp only [find_flights_legs, hr]
    exact ih t1 p1 (acc ++ s1)

/-- C4 (amended): if the first leg has at least one departure and its edge
a duration, and some later leg (after serviceable ones) has zero timetable
rows for its directed pair, then the resolver failure — an uncaught
`IndexError`, not a handled `NoFlightAvailable` — aborts the entire
`find_flights` call: no itinerary at all is returned, instead of dropping
only that candidate and returning a shorter list. -/
theorem no_flight_available_aborts (routes : Routes) (flights : List Flight)
    (c0 c1 : String) (rest : List String) (f0 : Flight) (fs : List Flight) (d0 : Int)
    (hfirst : pairFlights flights c0 c1 = f0 :: fs)
    (hdur : lookupDur routes c0 c1 = some d0)
    (hcrash : LegsCrash routes flights c1 rest) :
    find_flights routes flights (c0 :: c1 :: rest) = none := by
  simp only [find_flights, hfirst, find_flights_all, find_flights_option, hdur,
    find_flights_legs_crash routes flights c1 rest hcrash]

/-- Witness for the amended C4 at the concrete fixture: path A,B,C, one
A→B flight, no B→C rows. -/
theorem no_flight_available_aborts_witness :
    find_flights routesE2E flightsABonly ["A", "B", "C"] = none :=
  no_flight_available_aborts routesE2E flightsABonly "A" "B" ["C"]
    ⟨"A", "B", 1, 480, 100⟩ [] 120 (by decide) (by decide)
    (LegsCrash.here "B" "C" [] (by decide))

/-! ## C10: one itinerary per first-leg departure when every leg is
serviceable -/

/-- The assembler produces exactly one itinerary per processed first-leg
row when it succeeds. -/
theorem find_flights_all_length (routes : Routes) (flights : List Flight)
    (c0 c1 : String) (rest : List String) :
    ∀ fl l, find_flights_all routes flights c0 c1 rest fl = some l →
      l.length = fl.length := by
  intro fl
  induction fl with
  | nil =>
    intro l h
    simp only [find_flights_all, Option.some_inj] at h
    subst h
    rfl
  | cons f fs ih =>
    intro l h
    simp only [find_flights_all] at h
    cases hopt : find_flights_option routes flights c0 c1 rest f with
    | none => rw [hopt] at h; cases h
    | some it =>
      rw [hopt] at h
      cases hrec : find_flights_all routes flights c0 c1 rest fs with
      | none => rw [hrec] at h; cases h
      | some l' =>
        rw [hrec] at h
        cases h
        simp [ih l' hrec]

/-- When every leg of the chain is serviceable the leg loop succeeds from
any state. -/
theorem find_flights_legs_isSome (routes : Routes) (flights : List Flight) :
    ∀ rest cf, pairsOk routes flights (cf :: rest) = true →
    ∀ t p acc, (find_flights_legs routes flights cf rest t p acc).isSome = true := by
  intro rest
  induction rest with
  | nil =>
    intro cf _ t p acc
    simp [find_flights_legs]
  | cons ct rest' ih =>
    intro cf h t p acc
    simp only [pairsOk, Bool.and_eq_true] at h
    obtain ⟨⟨h1, h2⟩, h3⟩ := h
    have hne : pairFlights flights cf ct ≠ [] := by
      simpa [List.isEmpty_iff] using h1
    obtain ⟨dur, hdur⟩ := Option.isSome_iff_exists.mp h2
    have hs := find_nearest_flight_isSome routes flights cf ct t p dur hne hdur
    obtain ⟨r, hr⟩ := Option.isSome_iff_exists.mp hs
    obtain ⟨s1, t1, p1⟩ := r
    simp only [find_flights_legs, hr]
    exact ih ct h3 t1 p1 (acc ++ s1)

/-- When every leg is serviceable, each first-leg candidate yields an
itinerary. -/
theorem find_flights_option_isSome (routes : Routes) (flights : List Flight)
    (c0 c1 : String) (rest : List String) (f : Flight)
    (hok : pairsOk routes flights (c0 :: c1 :: rest) = true) :
    (find_flights_option routes flights c0 c1 rest f).isSome = true := by
  simp only [pairsOk, Bool.and_eq_true] at hok
  obtain ⟨⟨_, h2⟩, h3⟩ := hok
  obtain ⟨d0, hd0⟩ := Option.isSome_iff_exists.mp h2
  simp only [find_flights_option, hd0]
  split
  · rename_i heq
    have hlegs := find_flights_legs_isSome routes flights rest c1 h3
      (f.week_day * 1440 + f.time % 1440 * 60 / 3600 * 60 + f.time % 1440 * 60 / 60 % 60 + d0)
      f.price
      (c0 ++ " " ++ week_days f.week_day ++ " " ++
        (format02 (f.time % 1440 * 60 / 3600) ++ ":" ++ format02 (f.time % 1440 * 60 / 60 % 60)))
    rw [heq] at hlegs
    simp at hlegs
  · simp

/-- When every consecutive pair of the path is serviceable, the assembler
never drops a candidate. -/
theorem find_flights_all_isSome (routes : Routes) (flights : List Flight)
    (c0 c1 : String) (rest : List String)
    (hok : pairsOk routes flights (c0 :: c1 :: rest) = true) :
    ∀ fl, (find_flights_all routes flights c0 c1 rest fl).isSome = true := by
  intro fl
  induction fl with
  | nil => simp [find_flights_all]
  | cons f fs ih =>
    obtain ⟨it, hit⟩ := Option.isSome_iff_exists.mp
      (find_flights_option_isSome routes flights c0 c1 rest f hok)
    obtain ⟨l, hl⟩ := Option.isSome_iff_exists.mp ih
    simp [find_flights_all, hit, hl]

/-- C10: on a path of length at least 2 in which every consecutive directed
pair has at least one scheduled flight (and an edge duration), the
assembler returns exactly one itinerary option per first-leg timetable row,
in table order. -/
theorem one_option_per_first_leg_row (routes : Routes) (flights : List Flight)
    (c0 c1 : String) (rest : List String)
    (hok : pairsOk routes flights (c0 :: c1 :: rest) = true) :
    Option.map List.length (find_flights routes flights (c0 :: c1 :: rest)) =
      some (pairFlights flights c0 c1).length := by
  obtain ⟨l, hl⟩ := Option.isSome_iff_exists.mp
    (find_flights_all_isSome routes flights c0 c1 rest hok (pairFlights flights c0 c1))
  have hlen := find_flights_all_length routes flights c0 c1 rest
    (pairFlights flights c0 c1) l hl
  simp [find_flights, hl, hlen]

/-- Witness for C10 at the end-to-end fixture: exactly one A→B departure,
hence exactly one itinerary. -/
theorem one_option_per_first_leg_row_witness :
    Option.map List.length (find_flights routesE2E flightsE2E ["A", "B", "C"]) =
      some 1 := by
  rw [one_option_per_first_leg_row routesE2E flightsE2E "A" "B" ["C"] (by decide)]
  decide

/-! ## Graph and walk infrastructure for the BFS proof -/

/-- Listed neighbours are adjacent. -/
theorem adjB_of_mem (routes : Routes) (u v : String) (h : v ∈ neighborNames routes u) :
    adjB routes u v = true := by
  simpa [adjB] using h

/-- Adjacent vertices are listed neighbours. -/
theorem mem_of_adjB (routes : Routes) (u v : String) (h : adjB routes u v = true) :
    v ∈ neighborNames routes u := by
  simpa [adjB] using h

/-- In a closed graph every listed neighbour is a key. -/
theorem closed_neighbor (routes : Routes) (hcl : Closed routes) (u v : String)
    (h : v ∈ neighborNames routes u) : hasKey routes v = true := by
  simp only [neighborNames, neighborList] at h
  cases hf : routes.find? (fun pr => pr.1 == u) with
  | none => rw [hf] at h; simp at h
  | some pr =>
    rw [hf] at h
    have hmem := List.mem_of_find?_eq_some hf
    simp only [List.mem_map] at h
    obtain ⟨nb, hnb, rfl⟩ := h
    exact hcl pr hmem nb hnb

/-- Key membership in list form. -/
theorem hasKey_iff_mem (routes : Routes) (v : String) :
    hasKey routes v = true ↔ v ∈ routes.map Prod.fst := by
  simp only [hasKey, List.any_eq_true, beq_iff_eq, List.mem_map]

/-- Adjacency guarantees a recorded duration for the edge. -/
theorem lookupDur_isSome_of_adjB (routes : Routes) (u v : String)
    (h : adjB routes u v = true) : ∃ dur, lookupDur routes u v = some dur := by
  have hv := mem_of_adjB routes u v h
  simp only [neighborNames, List.mem_map] at hv
  obtain ⟨nb, hnb, rfl⟩ := hv
  simp only [lookupDur]
  cases hf : (neighborList routes u).find? (fun pr => pr.1 == nb.1) with
  | none =>
    have := List.find?_eq_none.mp hf nb hnb
    simp at this
  | some pr => exact ⟨pr.2, rfl⟩

/-- Unfolding equation for the chain test. -/
theorem chainB_cons (routes : Routes) (a b : String) (l : List String) :
    chainB routes (a :: b :: l) = (adjB routes a b && chainB routes (b :: l)) := rfl

/-- Appending a final vertex to a chain. -/
theorem chainB_snoc (routes : Routes) :
    ∀ (p : List String) (u v : String), p.getLast? = some u →
      chainB routes (p ++ [v]) = (chainB routes p && adjB routes u v) := by
  intro p
  induction p with
  | nil => intro u v h; cases h
  | cons a q ih =>
    intro u v h
    cases q with
    | nil =>
      rw [show ([a].getLast? = some a) from rfl, Option.some_inj] at h
      subst h
      show (adjB routes a v && chainB routes [v]) = (chainB routes [a] && adjB routes a v)
      show (adjB routes a v && true) = (true && adjB routes a v)
      rw [Bool.and_true, Bool.true_and]
    | cons b m =>
      have h' : (b :: m).getLast? = some u := by
        rwa [List.getLast?_cons_cons] at h
      show (adjB routes a b && chainB routes ((b :: m) ++ [v])) =
        ((adjB routes a b && chainB routes (b :: m)) && adjB routes u v)
      rw [ih u v h', Bool.and_assoc]

/-- The head of a list followed by anything after a fixed element. -/
theorem head?_append_cons (l : List String) (x : String) (r : List String) :
    (l ++ x :: r).head? = (l ++ [x]).head? := by
  cases l <;> rfl

/-- The last element of a list is found after any prefix. -/
theorem getLast?_append_cons :
    ∀ (l : List String) (x : String) (r : List String),
      (l ++ x :: r).getLast? = (x :: r).getLast? := by
  intro l
  induction l with
  | nil => intro x r; rfl
  | cons a m ih =>
    intro x r
    cases m with
    | nil =>
      show (a :: x :: r).getLast? = (x :: r).getLast?
      exact List.getLast?_cons_cons
    | cons b mm =>
      show (a :: b :: (mm ++ x :: r)).getLast? = (x :: r).getLast?
      rw [List.getLast?_cons_cons]
      exact ih x r

/-- Extending a walk by one edge. -/
theorem pathFrom_extend (routes : Routes) (s u v : String) (p : List String)
    (hp : PathFrom routes s u p) (hadj : adjB routes u v = true) :
    PathFrom routes s v (p ++ [v]) := by
  obtain ⟨h1, h2, h3⟩ := hp
  refine ⟨?_, ?_, ?_⟩
  · cases p with
    | nil => cases h1
    | cons a q => simpa using h1
  · exact List.getLast?_concat p
  · rw [chainB_snoc routes p u v h2, h3, hadj]
    rfl

/-- A duplicated element splits a list. -/
theorem not_nodup_decomp : ∀ (l : List String), ¬ l.Nodup →
    ∃ a x b c, l = a ++ (x :: b) ++ (x :: c) := by
  intro l
  induction l with
  | nil => intro h; exact absurd List.nodup_nil h
  | cons y t ih =>
    intro h
    by_cases hy : y ∈ t
    · obtain ⟨b, c, hbc⟩ := List.append_of_mem hy
      exact ⟨[], y, b, c, by simp [hbc]⟩
    · have ht : ¬ t.Nodup := fun hn => h (List.nodup_cons.mpr ⟨hy, hn⟩)
      obtain ⟨a, x, b, c, hac⟩ := ih ht
      exact ⟨y :: a, x, b, c, by simp [hac]⟩

/-- Chains split at an interior element. -/
theorem chainB_append_cons (routes : Routes) :
    ∀ (l1 : List String) (x : String) (l2 : List String),
      chainB routes (l1 ++ x :: l2) =
        (chainB routes (l1 ++ [x]) && chainB routes (x :: l2)) := by
  intro l1
  induction l1 with
  | nil =>
    intro x l2
    show chainB routes (x :: l2) = (chainB routes [x] && chainB routes (x :: l2))
    show chainB routes (x :: l2) = (true && chainB routes (x :: l2))
    rw [Bool.true_and]
  | cons a m ih =>
    intro x l2
    cases m with
    | nil =>
      show (adjB routes a x && chainB routes (x :: l2)) =
        ((adjB routes a x && chainB routes [x]) && chainB routes (x :: l2))
      show (adjB routes a x && chainB routes (x :: l2)) =
        ((adjB routes a x && true) && chainB routes (x :: l2))
      rw [Bool.and_true]
    | cons b mm =>
      show (adjB routes a b && chainB routes ((b :: mm) ++ x :: l2)) =
        ((adjB routes a b && chainB routes ((b :: mm) ++ [x])) && chainB routes (x :: l2))
      rw [ih x l2, Bool.and_assoc]

/-- Cutting out the span between two occurrences of the same vertex keeps
a walk a walk. -/
theorem pathFrom_surgery (routes : Routes) (s e : String) (a : List String) (x : String)
    (b c : List String) (hp : PathFrom routes s e (a ++ (x :: b) ++ (x :: c))) :
    PathFrom routes s e (a ++ x :: c) := by
  obtain ⟨h1, h2, h3⟩ := hp
  have hassoc : a ++ (x :: b) ++ (x :: c) = a ++ x :: (b ++ x :: c) := by
    rw [List.append_assoc]
    rfl
  rw [hassoc] at h1 h2 h3
  rw [chainB_append_cons routes a x (b ++ x :: c), Bool.and_eq_true] at h3
  obtain ⟨hax, hrest⟩ := h3
  have hrest' : chainB routes ((x :: b) ++ x :: c) = true := hrest
  rw [chainB_append_cons routes (x :: b) x c, Bool.and_eq_true] at hrest'
  refine ⟨?_, ?_, ?_⟩
  · rw [head?_append_cons a x c, ← head?_append_cons a x (b ++ x :: c)]
    exact h1
  · rw [getLast?_append_cons a x (b ++ x :: c)] at h2
    have h2' : ((x :: b) ++ x :: c).getLast? = some e := h2
    rw [getLast?_append_cons (x :: b) x c] at h2'
    rw [getLast?_append_cons a x c]
    exact h2'
  · rw [chainB_append_cons routes a x c, hax, hrest'.2]
    rfl

/-- Every walk shortens to a duplicate-free walk. -/
theorem exists_nodup_path (routes : Routes) (s e : String) :
    ∀ (n : Nat) (p : List String), p.length ≤ n → PathFrom routes s e p →
      ∃ q, PathFrom routes s e q ∧ q.Nodup ∧ q.length ≤ p.length := by
  intro n
  induction n with
  | zero =>
    intro p hl hp
    obtain ⟨h1, -, -⟩ := hp
    cases p with
    | nil => cases h1
    | cons a q => simp at hl
  | succ n ih =>
    intro p hl hp
    by_cases hnd : p.Nodup
    · exact ⟨p, hp, hnd, le_refl _⟩
    · obtain ⟨a, x, b, c, rfl⟩ := not_nodup_decomp p hnd
      have hp' := pathFrom_surgery routes s e a x b c hp
      have hlen : (a ++ x :: c).length + 1 ≤ (a ++ (x :: b) ++ (x :: c)).length := by
        simp [List.length_append]
        omega
      obtain ⟨q, hq, hqnd, hqle⟩ := ih (a ++ x :: c) (by omega) hp'
      exact ⟨q, hq, hqnd, by omega⟩

/-- In a closed graph a walk from a key visits only keys. -/
theorem pathFrom_keys (routes : Routes) (hcl : Closed routes) :
    ∀ (p : List String) (a : String), p.head? = some a → chainB routes p = true →
      hasKey routes a = true → ∀ v ∈ p, hasKey routes v = true := by
  intro p
  induction p with
  | nil => intro a h; cases h
  | cons a' q ih =>
    intro a h hch hk v hv
    rw [List.head?_cons, Option.some_inj] at h
    subst h
    cases q with
    | nil =>
      rw [List.mem_singleton] at hv
      subst hv
      exact hk
    | cons b m =>
      rw [chainB_cons, Bool.and_eq_true] at hch
      have hb : hasKey routes b = true :=
        closed_neighbor routes hcl a' b (mem_of_adjB routes a' b hch.1)
      cases hv with
      | head => exact hk
      | tail _ hv' => exact ih b rfl hch.2 hb v hv'

/-- A duplicate-free list of keys is no longer than the graph. -/
theorem nodup_path_length_le (routes : Routes) (p : List String)
    (hnd : p.Nodup) (hkeys : ∀ v ∈ p, hasKey routes v = true) :
    p.length ≤ routes.length := by
  have hsub : p.toFinset ⊆ (routes.map Prod.fst).toFinset := by
    intro v hv
    rw [List.mem_toFinset] at hv
    rw [List.mem_toFinset]
    exact (hasKey_iff_mem routes v).mp (hkeys v hv)
  calc p.length = p.toFinset.card := (List.toFinset_card_of_nodup hnd).symm
    _ ≤ ((routes.map Prod.fst).toFinset).card := Finset.card_le_card hsub
    _ ≤ (routes.map Prod.fst).length := List.toFinset_card_le _
    _ = routes.length := List.length_map _ _

/-- Splitting the final edge off a walk. -/
theorem pathFrom_snoc_decomp (routes : Routes) (s v : String) (as : List String)
    (hne : as ≠ []) (hp : PathFrom routes s v (as ++ [v])) :
    ∃ u, PathFrom routes s u as ∧ adjB routes u v = true := by
  obtain ⟨h1, h2, h3⟩ := hp
  cases hgl : as.getLast? with
  | none =>
    rw [List.getLast?_eq_none_iff] at hgl
    exact absurd hgl hne
  | some u =>
    rw [chainB_snoc routes as u v hgl, Bool.and_eq_true] at h3
    refine ⟨u, ⟨?_, hgl, h3.1⟩, h3.2⟩
    cases as with
    | nil => exact absurd rfl hne
    | cons b mm => simpa using h1

/-- The head of a leveled queue carries the minimum recorded level. -/
theorem queue_levels_head (d : String → Option Nat) (cur : String) (rest : List String)
    (h : QueueLevels d (cur :: rest)) :
    ∃ c, d cur = some c ∧ ∀ v ∈ cur :: rest, ∃ m, d v = some m ∧ c ≤ m := by
  obtain ⟨k, q1, q2, heq, h1, h2⟩ := h
  cases q1 with
  | nil =>
    rw [List.nil_append] at heq
    refine ⟨k + 1, h2 cur (heq ▸ List.mem_cons_self cur rest), ?_⟩
    intro v hv
    exact ⟨k + 1, h2 v (heq ▸ hv), le_refl _⟩
  | cons a q1' =>
    rw [List.cons_append] at heq
    injection heq with hca hrest
    subst hca
    refine ⟨k, h1 cur (List.mem_cons_self cur q1'), ?_⟩
    intro v hv
    cases hv with
    | head => exact ⟨k, h1 cur (List.mem_cons_self cur q1'), le_refl _⟩
    | tail _ hv' =>
      rw [hrest] at hv'
      rcases List.mem_append.mp hv' with hv1 | hv2
      · exact ⟨k, h1 v (List.mem_cons_of_mem cur hv1), le_refl _⟩
      · exact ⟨k + 1, h2 v hv2, Nat.le_succ k⟩

/-- A vertex recorded at distance 0 is the start. -/
theorem dist_zero_eq_start (routes : Routes) (s : String) (d : String → Option Nat)
    (hEx : ExactDist routes s d) (v : String) (h : d v = some 0) : v = s := by
  obtain ⟨⟨p, hp, hlen⟩, -⟩ := hEx v 0 h
  obtain ⟨h1, h2, -⟩ := hp
  cases p with
  | nil => cases h1
  | cons a q =>
    cases q with
    | nil =>
      rw [List.head?_cons, Option.some_inj] at h1
      rw [show ([a].getLast? = some a) from rfl, Option.some_inj] at h2
      rw [← h2, h1]
    | cons b m => simp at hlen

/-- Any walk from the start to a still-undiscovered vertex is longer by at
least two than the level of the queue head: it must leave the discovered
region through a queued vertex. -/
theorem undiscovered_far (routes : Routes) (s : String) (d : String → Option Nat)
    (cur : String) (rest : List String) (c : Nat)
    (hEx : ExactDist routes s d) (hQ : QueueLevels d (cur :: rest))
    (hScan : ScanComplete routes d (cur :: rest))
    (hs : d s = some 0) (hc : d cur = some c) :
    ∀ (p : List String) (v : String), d v = none → PathFrom routes s v p →
      c + 2 ≤ p.length := by
  obtain ⟨c0, hc0, hmin⟩ := queue_levels_head d cur rest hQ
  rw [hc, Option.some_inj] at hc0
  subst hc0
  intro p
  induction p using List.reverseRecOn with
  | nil =>
    intro v hv hp
    obtain ⟨h1, -, -⟩ := hp
    cases h1
  | append_singleton as a ih =>
    intro v hv hp
    have hva : v = a := by
      obtain ⟨-, h2, -⟩ := hp
      rw [List.getLast?_concat, Option.some_inj] at h2
      exact h2.symm
    subst hva
    have hvs : v ≠ s := fun hh => by rw [hh, hs] at hv; cases hv
    cases has : as with
    | nil =>
      subst has
      obtain ⟨h1, -, -⟩ := hp
      rw [List.nil_append, List.head?_cons, Option.some_inj] at h1
      exact absurd h1 hvs
    | cons b m =>
      subst has
      obtain ⟨u, hpu, hadj⟩ :=
        pathFrom_snoc_decomp routes s v (b :: m) (by simp) hp
      cases du : d u with
      | none =>
        have hlen := ih u du hpu
        simp only [List.length_append, List.length_cons, List.length_singleton] at *
        omega
      | some mu =>
        have hu_in : u ∈ cur :: rest := by
          by_contra hnot
          have hd := hScan u (by rw [du]; rfl) hnot v (mem_of_adjB routes u v hadj)
          rw [hv] at hd
          cases hd
        obtain ⟨m2, hm2, hcm⟩ := hmin u hu_in
        rw [du, Option.some_inj] at hm2
        subst hm2
        obtain ⟨-, hlow⟩ := hEx u mu du
        have := hlow (b :: m) hpu
        simp only [List.length_append, List.length_cons, List.length_singleton] at *
        omega

/-- With an empty queue and complete scans nothing undiscovered is
reachable at all. -/
theorem no_reach_of_empty_queue (routes : Routes) (s : String) (d : String → Option Nat)
    (_hEx : ExactDist routes s d) (hs : d s = some 0)
    (hScan : ScanComplete routes d []) :
    ∀ (p : List String) (v : String), d v = none → ¬ PathFrom routes s v p := by
  intro p
  induction p using List.reverseRecOn with
  | nil =>
    intro v hv hp
    obtain ⟨h1, -, -⟩ := hp
    cases h1
  | append_singleton as a ih =>
    intro v hv hp
    have hva : v = a := by
      obtain ⟨-, h2, -⟩ := hp
      rw [List.getLast?_concat, Option.some_inj] at h2
      exact h2.symm
    subst hva
    have hvs : v ≠ s := fun hh => by rw [hh, hs] at hv; cases hv
    cases has : as with
    | nil =>
      subst has
      obtain ⟨h1, -, -⟩ := hp
      rw [List.nil_append, List.head?_cons, Option.some_inj] at h1
      exact absurd h1 hvs
    | cons b m =>
      subst has
      obtain ⟨u, hpu, hadj⟩ :=
        pathFrom_snoc_decomp routes s v (b :: m) (by simp) hp
      cases du : d u with
      | none => exact ih u du hpu
      | some mu =>
        have hd := hScan u (by rw [du]; rfl) (by simp) v (mem_of_adjB routes u v hadj)
        rw [hv] at hd
        cases hd

/-- Effect of one neighbour scan: a duplicate-free set `newly` of
previously undiscovered neighbours of the scanned vertex gets distance
`c + 1` and parent `cur` and is appended to the queue; the found flag
rises exactly when the target is among them; a scan that ends with the
flag down has seen every neighbour discovered. -/
theorem visitNeighbors_spec (e : String) (c : Nat) (cur : String) :
    ∀ (ns : List String) (d : String → Option Nat) (par : String → Option String)
      (q : List String),
    ∃ newly : List String,
      (∀ v, (visitNeighbors e c cur ns d par q).1 v =
        if v ∈ newly then some (c + 1) else d v) ∧
      (∀ v, (visitNeighbors e c cur ns d par q).2.1 v =
        if v ∈ newly then some cur else par v) ∧
      (visitNeighbors e c cur ns d par q).2.2.1 = q ++ newly ∧
      newly ⊆ ns ∧ newly.Nodup ∧ (∀ v ∈ newly, d v = none) ∧
      ((visitNeighbors e c cur ns d par q).2.2.2 = true → e ∈ newly) ∧
      ((visitNeighbors e c cur ns d par q).2.2.2 = false →
        e ∉ newly ∧ ∀ v ∈ ns, (d v).isSome = true ∨ v ∈ newly) := by
  intro ns
  induction ns with
  | nil =>
    intro d par q
    exact ⟨[], by simp [visitNeighbors], by simp [visitNeighbors],
      by simp [visitNeighbors], by simp, List.nodup_nil, by simp,
      by simp [visitNeighbors], by simp [visitNeighbors]⟩
  | cons n rest ih =>
    intro d par q
    by_cases hn : d n = none
    · by_cases hne : n = e
      · subst hne
        have hv : visitNeighbors n c cur (n :: rest) d par q =
            (fun v => if v = n then some (c + 1) else d v,
             fun v => if v = n then some cur else par v, q ++ [n], true) := by
          simp [visitNeighbors, hn]
        refine ⟨[n], ?_, ?_, ?_, ?_, List.nodup_singleton n, ?_, ?_, ?_⟩
        · intro v
          rw [hv]
          by_cases hvn : v = n <;> simp [hvn]
        · intro v
          rw [hv]
          by_cases hvn : v = n <;> simp [hvn]
        · rw [hv]
        · intro x hx
          rw [List.mem_singleton] at hx
          subst hx
          exact List.mem_cons_self x rest
        · intro v hv'
          rw [List.mem_singleton] at hv'
          subst hv'
          exact hn
        · intro
          exact List.mem_singleton.mpr rfl
        · intro hfalse
          rw [hv] at hfalse
          cases hfalse
      · have hstep : visitNeighbors e c cur (n :: rest) d par q =
            visitNeighbors e c cur rest (fun v => if v = n then some (c + 1) else d v)
              (fun v => if v = n then some cur else par v) (q ++ [n]) := by
          simp [visitNeighbors, hn, hne]
        obtain ⟨newly, e1, e2, e3, e4, e5, e6, e7, e8⟩ :=
          ih (fun v => if v = n then some (c + 1) else d v)
            (fun v => if v = n then some cur else par v) (q ++ [n])
        have hnn : n ∉ newly := by
          intro hmem
          have hcontra := e6 n hmem
          simp at hcontra
        refine ⟨n :: newly, ?_, ?_, ?_, ?_, List.nodup_cons.mpr ⟨hnn, e5⟩, ?_, ?_, ?_⟩
        · intro v
          rw [hstep, e1 v]
          by_cases hv1 : v ∈ newly
          · simp [hv1]
          · by_cases hv2 : v = n
            · simp [hv1, hv2]
            · simp [hv1, hv2]
        · intro v
          rw [hstep, e2 v]
          by_cases hv1 : v ∈ newly
          · simp [hv1]
          · by_cases hv2 : v = n
            · simp [hv1, hv2]
            · simp [hv1, hv2]
        · rw [hstep, e3, List.append_assoc]
          rfl
        · intro x hx
          rw [List.mem_cons] at hx
          rcases hx with hx | hx
          · subst hx
            exact List.mem_cons_self x rest
          · exact List.mem_cons_of_mem n (e4 hx)
        · intro v hv'
          rw [List.mem_cons] at hv'
          rcases hv' with hv' | hv'
          · subst hv'
            exact hn
          · have hd' := e6 v hv'
            by_cases hv2 : v = n
            · rw [if_pos hv2] at hd'
              cases hd'
            · rwa [if_neg hv2] at hd'
        · intro htrue
          rw [hstep] at htrue
          exact List.mem_cons_of_mem n (e7 htrue)
        · intro hfalse
          rw [hstep] at hfalse
          obtain ⟨he, hall⟩ := e8 hfalse
          constructor
          · intro hmem
            rw [List.mem_cons] at hmem
            rcases hmem with hmem | hmem
            · exact hne hmem.symm
            · exact he hmem
          · intro v hv'
            rw [List.mem_cons] at hv'
            rcases hv' with hv' | hv'
            · subst hv'
              exact Or.inr (List.mem_cons_self v newly)
            · rcases hall v hv' with hsome | hmem
              · by_cases hv2 : v = n
                · subst hv2
                  exact Or.inr (List.mem_cons_self v newly)
                · rw [if_neg hv2] at hsome
                  exact Or.inl hsome
              · exact Or.inr (List.mem_cons_of_mem n hmem)
    · have hstep : visitNeighbors e c cur (n :: rest) d par q =
          visitNeighbors e c cur rest d par q := by
        simp [visitNeighbors, hn]
      obtain ⟨newly, e1, e2, e3, e4, e5, e6, e7, e8⟩ := ih d par q
      refine ⟨newly, ?_, ?_, ?_, ?_, e5, e6, ?_, ?_⟩
      · intro v
        rw [hstep]
        exact e1 v
      · intro v
        rw [hstep]
        exact e2 v
      · rw [hstep]
        exact e3
      · exact fun x hx => List.mem_cons_of_mem n (e4 hx)
      · intro htrue
        rw [hstep] at htrue
        exact e7 htrue
      · intro hfalse
        rw [hstep] at hfalse
        obtain ⟨he, hall⟩ := e8 hfalse
        refine ⟨he, ?_⟩
        intro v hv'
        rw [List.mem_cons] at hv'
        rcases hv' with hv' | hv'
        · subst hv'
          left
          cases hd : d v with
          | none => exact absurd hd hn
          | some m => rfl
        · exact hall v hv'

/-- Exactness is preserved when the fresh neighbours of the queue head
are recorded at level `c + 1`. -/
theorem exact_update (routes : Routes) (s : String) (d d' : String → Option Nat)
    (cur : String) (rest : List String) (c : Nat) (newly : List String)
    (hEx : ExactDist routes s d) (hQ : QueueLevels d (cur :: rest))
    (hScan : ScanComplete routes d (cur :: rest)) (hs : d s = some 0)
    (hc : d cur = some c)
    (hptw : ∀ v, d' v = if v ∈ newly then some (c + 1) else d v)
    (hsub : newly ⊆ neighborNames routes cur)
    (hfresh : ∀ v ∈ newly, d v = none) :
    ExactDist routes s d' := by
  intro v n hv
  rw [hptw v] at hv
  by_cases hmem : v ∈ newly
  · rw [if_pos hmem, Option.some_inj] at hv
    subst hv
    obtain ⟨⟨pc, hpc, hpclen⟩, -⟩ := hEx cur c hc
    have hadj : adjB routes cur v = true := adjB_of_mem routes cur v (hsub hmem)
    constructor
    · refine ⟨pc ++ [v], pathFrom_extend routes s cur v pc hpc hadj, ?_⟩
      simp [List.length_append, hpclen]
    · intro p hp
      have := undiscovered_far routes s d cur rest c hEx hQ hScan hs hc p v
        (hfresh v hmem) hp
      omega
  · rw [if_neg hmem] at hv
    exact hEx v n hv

/-- Parent consistency is preserved by assigning parent `cur` to the fresh
neighbours. -/
theorem parent_update (routes : Routes) (s : String) (d d' : String → Option Nat)
    (par par' : String → Option String) (cur : String) (c : Nat) (newly : List String)
    (hPar : ParentInv routes s d par) (hc : d cur = some c)
    (hdptw : ∀ v, d' v = if v ∈ newly then some (c + 1) else d v)
    (hpptw : ∀ v, par' v = if v ∈ newly then some cur else par v)
    (hsub : newly ⊆ neighborNames routes cur)
    (hfresh : ∀ v ∈ newly, d v = none) :
    ParentInv routes s d' par' := by
  obtain ⟨hs0, hps, hedge, hpar_ex⟩ := hPar
  have hsnot : s ∉ newly := fun hmem => by rw [hfresh s hmem] at hs0; cases hs0
  have hcurnot : cur ∉ newly := fun hmem => by rw [hfresh cur hmem] at hc; cases hc
  refine ⟨?_, ?_, ?_, ?_⟩
  · rw [hdptw s, if_neg hsnot]
    exact hs0
  · rw [hpptw s, if_neg hsnot]
    exact hps
  · intro v u hvu
    rw [hpptw v] at hvu
    by_cases hmem : v ∈ newly
    · rw [if_pos hmem, Option.some_inj] at hvu
      subst hvu
      refine ⟨adjB_of_mem routes cur v (hsub hmem), c, ?_, ?_⟩
      · rw [hdptw cur, if_neg hcurnot]
        exact hc
      · rw [hdptw v, if_pos hmem]
    · rw [if_neg hmem] at hvu
      obtain ⟨hadj, m, hdu, hdv⟩ := hedge v u hvu
      have hunot : u ∉ newly := fun hm => by rw [hfresh u hm] at hdu; cases hdu
      refine ⟨hadj, m, ?_, ?_⟩
      · rw [hdptw u, if_neg hunot]
        exact hdu
      · rw [hdptw v, if_neg hmem]
        exact hdv
  · intro v n hv
    rw [hdptw v] at hv
    by_cases hmem : v ∈ newly
    · exact ⟨cur, by rw [hpptw v, if_pos hmem]⟩
    · rw [if_neg hmem] at hv
      obtain ⟨u, hu⟩ := hpar_ex v n hv
      exact ⟨u, by rw [hpptw v, if_neg hmem]; exact hu⟩

/-- The two-level queue shape is preserved by appending the fresh
neighbours (level `c + 1`) behind the remaining queue. -/
theorem queue_levels_update (d d' : String → Option Nat) (cur : String)
    (rest newly : List String) (c : Nat)
    (hQ : QueueLevels d (cur :: rest)) (hc : d cur = some c)
    (hptw : ∀ v, d' v = if v ∈ newly then some (c + 1) else d v)
    (hfresh : ∀ v ∈ newly, d v = none) :
    QueueLevels d' (rest ++ newly) := by
  obtain ⟨k, q1, q2, heq, h1, h2⟩ := hQ
  have hnotnew : ∀ (v : String) (m : Nat), d v = some m → v ∉ newly :=
    fun v m hm hmem => by rw [hfresh v hmem] at hm; cases hm
  cases q1 with
  | nil =>
    rw [List.nil_append] at heq
    have hck : c = k + 1 := by
      have hcq := h2 cur (heq ▸ List.mem_cons_self cur rest)
      rw [hc, Option.some_inj] at hcq
      exact hcq
    refine ⟨c, rest, newly, rfl, ?_, ?_⟩
    · intro v hv
      have hdv := h2 v (heq ▸ List.mem_cons_of_mem cur hv)
      rw [hptw v, if_neg (hnotnew v (k + 1) hdv), hdv, hck]
    · intro v hv
      rw [hptw v, if_pos hv]
  | cons a q1' =>
    rw [List.cons_append] at heq
    injection heq with hca hrest
    subst hca
    have hkc : c = k := by
      have hcq := h1 cur (List.mem_cons_self cur q1')
      rw [hc, Option.some_inj] at hcq
      exact hcq
    refine ⟨c, q1', q2 ++ newly, ?_, ?_, ?_⟩
    · rw [hrest, List.append_assoc]
    · intro v hv
      have hdv := h1 v (List.mem_cons_of_mem cur hv)
      rw [hptw v, if_neg (hnotnew v k hdv), hdv, hkc]
    · intro v hv
      rcases List.mem_append.mp hv with hv | hv
      · have hdv := h2 v hv
        rw [hptw v, if_neg (hnotnew v (k + 1) hdv), hdv, hkc]
      · rw [hptw v, if_pos hv]

/-- Scan completeness is preserved: the dequeued head has had all its
neighbours discovered, earlier-processed vertices are untouched. -/
theorem scan_complete_update (routes : Routes) (d d' : String → Option Nat)
    (cur : String) (rest newly : List String) (c : Nat)
    (hScan : ScanComplete routes d (cur :: rest))
    (hptw : ∀ v, d' v = if v ∈ newly then some (c + 1) else d v)
    (hfull : ∀ v ∈ neighborNames routes cur, (d v).isSome = true ∨ v ∈ newly) :
    ScanComplete routes d' (rest ++ newly) := by
  have hpres : ∀ v, (d v).isSome = true → (d' v).isSome = true := by
    intro v hv
    rw [hptw v]
    by_cases hmem : v ∈ newly
    · rw [if_pos hmem]
      rfl
    · rw [if_neg hmem]
      exact hv
  intro u hu hnot w hw
  by_cases hcu : u = cur
  · subst hcu
    rcases hfull w hw with hsw | hmem
    · exact hpres w hsw
    · rw [hptw w, if_pos hmem]
      rfl
  · have hun : u ∉ newly := fun hmem => hnot (List.mem_append.mpr (Or.inr hmem))
    have hdu : (d u).isSome = true := by
      rw [hptw u, if_neg hun] at hu
      exact hu
    have hunot_old : u ∉ cur :: rest := by
      intro hm
      cases hm with
      | head => exact hcu rfl
      | tail _ hm' => exact hnot (List.mem_append.mpr (Or.inl hm'))
    exact hpres w (hScan u hdu hunot_old w hw)

/-- Discovered vertices stay keys when fresh neighbours of a key are
discovered (closedness). -/
theorem discovered_keys_update (routes : Routes) (d d' : String → Option Nat)
    (cur : String) (newly : List String) (c : Nat) (hcl : Closed routes)
    (hK : DiscoveredKeys routes d)
    (hptw : ∀ v, d' v = if v ∈ newly then some (c + 1) else d v)
    (hsub : newly ⊆ neighborNames routes cur) :
    DiscoveredKeys routes d' := by
  intro v hv
  by_cases hmem : v ∈ newly
  · exact closed_neighbor routes hcl cur v (hsub hmem)
  · rw [hptw v, if_neg hmem] at hv
    exact hK v hv

/-- Discovering `newly` raises the discovered-key count by exactly the
number of fresh vertices. -/
theorem measure_update (routes : Routes) (d d' : String → Option Nat)
    (newly : List String) (c : Nat)
    (hptw : ∀ v, d' v = if v ∈ newly then some (c + 1) else d v)
    (hfresh : ∀ v ∈ newly, d v = none) (hnd : newly.Nodup)
    (hkeys : ∀ v ∈ newly, hasKey routes v = true) :
    ((keysFinset routes).filter (fun v => (d' v).isSome = true)).card =
      ((keysFinset routes).filter (fun v => (d v).isSome = true)).card +
        newly.length := by
  have hset : (keysFinset routes).filter (fun v => (d' v).isSome = true) =
      (keysFinset routes).filter (fun v => (d v).isSome = true) ∪ newly.toFinset := by
    ext v
    simp only [Finset.mem_filter, Finset.mem_union, List.mem_toFinset]
    constructor
    · rintro ⟨hk, hv⟩
      rw [hptw v] at hv
      by_cases hmem : v ∈ newly
      · exact Or.inr hmem
      · rw [if_neg hmem] at hv
        exact Or.inl ⟨hk, hv⟩
    · rintro (⟨hk, hv⟩ | hmem)
      · refine ⟨hk, ?_⟩
        rw [hptw v]
        by_cases hmem : v ∈ newly
        · rw [if_pos hmem]
          rfl
        · rw [if_neg hmem]
          exact hv
      · refine ⟨?_, ?_⟩
        · rw [keysFinset, List.mem_toFinset]
          exact (hasKey_iff_mem routes v).mp (hkeys v hmem)
        · rw [hptw v, if_pos hmem]
          rfl
  have hdisj : Disjoint
      ((keysFinset routes).filter (fun v => (d v).isSome = true)) newly.toFinset := by
    rw [Finset.disjoint_left]
    intro v hv hmem
    rw [Finset.mem_filter] at hv
    rw [List.mem_toFinset] at hmem
    rw [hfresh v hmem] at hv
    exact absurd hv.2 (by simp)
  rw [hset, Finset.card_union_of_disjoint hdisj, List.toFinset_card_of_nodup hnd]

/-- One dequeue of the BFS: unconditionally the distance and parent
invariants are maintained; if the flag rises the target is discovered;
otherwise the full invariant is restored and the measure drops by one. -/
theorem bfs_step (routes : Routes) (s e : String) (cur : String) (rest : List String)
    (d : String → Option Nat) (par : String → Option String) (c : Nat)
    (hcl : Closed routes) (hinv : BfsInv routes s e d par (cur :: rest))
    (hc : d cur = some c) :
    (ExactDist routes s (visitNeighbors e c cur (neighborNames routes cur) d par rest).1 ∧
      ParentInv routes s (visitNeighbors e c cur (neighborNames routes cur) d par rest).1
        (visitNeighbors e c cur (neighborNames routes cur) d par rest).2.1) ∧
    ((visitNeighbors e c cur (neighborNames routes cur) d par rest).2.2.2 = true →
      ((visitNeighbors e c cur (neighborNames routes cur) d par rest).1 e).isSome = true) ∧
    ((visitNeighbors e c cur (neighborNames routes cur) d par rest).2.2.2 = false →
      BfsInv routes s e (visitNeighbors e c cur (neighborNames routes cur) d par rest).1
        (visitNeighbors e c cur (neighborNames routes cur) d par rest).2.1
        (visitNeighbors e c cur (neighborNames routes cur) d par rest).2.2.1 ∧
      bfsMeasure routes (visitNeighbors e c cur (neighborNames routes cur) d par rest).1
          (visitNeighbors e c cur (neighborNames routes cur) d par rest).2.2.1 + 1 =
        bfsMeasure routes d (cur :: rest)) := by
  obtain ⟨hEx, hPar, hQ, hScan, hK, hE⟩ := hinv
  obtain ⟨newly, e1, e2, e3, e4, e5, e6, e7, e8⟩ :=
    visitNeighbors_spec e c cur (neighborNames routes cur) d par rest
  have hEx' := exact_update routes s d _ cur rest c newly hEx hQ hScan hPar.1 hc
    e1 e4 e6
  have hPar' := parent_update routes s d _ par _ cur c newly hPar hc e1 e2 e4 e6
  refine ⟨⟨hEx', hPar'⟩, ?_, ?_⟩
  · intro htrue
    rw [e1 e, if_pos (e7 htrue)]
    rfl
  · intro hfalse
    obtain ⟨henot, hfull⟩ := e8 hfalse
    have hkeys : ∀ v ∈ newly, hasKey routes v = true :=
      fun v hv => closed_neighbor routes hcl cur v (e4 hv)
    constructor
    · refine ⟨hEx', hPar', ?_, ?_, ?_, ?_⟩
      · rw [e3]
        exact queue_levels_update d _ cur rest newly c hQ hc e1 e6
      · rw [e3]
        exact scan_complete_update routes d _ cur rest newly c hScan e1 hfull
      · exact discovered_keys_update routes d _ cur newly c hcl hK e1 e4
      · intro hne
        rw [e1 e, if_neg henot]
        exact hE hne
    · have hcount := measure_update routes d _ newly c e1 e6 e5 hkeys
      have hDle : ((keysFinset routes).filter
          (fun v => ((visitNeighbors e c cur (neighborNames routes cur) d par rest).1 v).isSome
            = true)).card ≤ (keysFinset routes).card :=
        Finset.card_filter_le _ _
      rw [bfsMeasure, bfsMeasure, e3, hcount]
      rw [List.length_append, List.length_cons]
      rw [hcount] at hDle
      omega

/-- Partial correctness of the BFS loop: whatever state it returns
satisfies the post-state description. -/
theorem bfsLoop_post (routes : Routes) (s e : String) :
    ∀ (fuel : Nat) (d : String → Option Nat) (par : String → Option String)
      (q : List String), BfsInv routes s e d par q → Closed routes →
    ∀ res, bfsLoop routes e fuel d par q = some res → BfsPost routes s e res := by
  intro fuel
  induction fuel with
  | zero =>
    intro d par q hinv _ res hres
    cases q with
    | nil =>
      simp only [bfsLoop] at hres
      cases hres
      refine ⟨hinv.1, hinv.2.1, ?_, ?_⟩
      · intro h
        cases h
      · intro _
        exact ⟨hinv.2.2.2.2.2, hinv.2.2.2.1⟩
    | cons cur rest => simp [bfsLoop] at hres
  | succ fuel ih =>
    intro d par q hinv hcl res hres
    cases q with
    | nil =>
      simp only [bfsLoop] at hres
      cases hres
      refine ⟨hinv.1, hinv.2.1, ?_, ?_⟩
      · intro h
        cases h
      · intro _
        exact ⟨hinv.2.2.2.2.2, hinv.2.2.2.1⟩
    | cons cur rest =>
      obtain ⟨c, hc, -⟩ := queue_levels_head d cur rest hinv.2.2.1
      have hgd : (d cur).getD 0 = c := by rw [hc]; rfl
      have hstep := bfs_step routes s e cur rest d par c hcl hinv hc
      simp only [bfsLoop, hgd] at hres
      cases hb : (visitNeighbors e c cur (neighborNames routes cur) d par rest).2.2.2 with
      | true =>
        rw [hb] at hres
        simp only [reduceIte] at hres
        cases hres
        refine ⟨hstep.1.1, hstep.1.2, fun _ => hstep.2.1 hb, ?_⟩
        intro h
        cases h
      | false =>
        rw [hb] at hres
        simp only [Bool.false_eq_true, reduceIte] at hres
        obtain ⟨hinv', -⟩ := hstep.2.2 hb
        exact ih _ _ _ hinv' hcl res hres

/-- Termination of the BFS loop: the measure bounds the number of
dequeues. -/
theorem bfsLoop_total (routes : Routes) (s e : String) :
    ∀ (fuel : Nat) (d : String → Option Nat) (par : String → Option String)
      (q : List String), BfsInv routes s e d par q → Closed routes →
      bfsMeasure routes d q ≤ fuel → (bfsLoop routes e fuel d par q).isSome = true := by
  intro fuel
  induction fuel with
  | zero =>
    intro d par q _ _ hm
    cases q with
    | nil => simp [bfsLoop]
    | cons cur rest =>
      exfalso
      rw [bfsMeasure] at hm
      simp only [List.length_cons] at hm
      omega
  | succ fuel ih =>
    intro d par q hinv hcl hm
    cases q with
    | nil => simp [bfsLoop]
    | cons cur rest =>
      obtain ⟨c, hc, -⟩ := queue_levels_head d cur rest hinv.2.2.1
      have hgd : (d cur).getD 0 = c := by rw [hc]; rfl
      have hstep := bfs_step routes s e cur rest d par c hcl hinv hc
      simp only [bfsLoop, hgd]
      cases hb : (visitNeighbors e c cur (neighborNames routes cur) d par rest).2.2.2 with
      | true => simp [hb]
      | false =>
        simp only [hb, Bool.false_eq_true, reduceIte]
        obtain ⟨hinv', hmeas⟩ := hstep.2.2 hb
        exact ih _ _ _ hinv' hcl (by omega)

/-- The reconstruction walk from a vertex recorded at distance `n`
terminates within `n` steps and returns the reversed parent chain — a
walk of `n` hops from the start. -/
theorem walkParents_spec (routes : Routes) (s : String) (d : String → Option Nat)
    (par : String → Option String)
    (hEx : ExactDist routes s d) (hPar : ParentInv routes s d par) :
    ∀ (n : Nat) (v : String), d v = some n → ∀ (fuel : Nat), n ≤ fuel →
    ∀ (acc : List String) (tot : Int),
    ∃ (chain : List String) (tot' : Int),
      walkParents routes par fuel v acc tot = some ((acc ++ chain).reverse, tot') ∧
      chain.length = n ∧
      chainB routes ((v :: chain).reverse) = true ∧
      (v :: chain).getLast? = some s := by
  intro n
  induction n with
  | zero =>
    intro v hv fuel _ acc tot
    have hvs : v = s := dist_zero_eq_start routes s d hEx v hv
    subst hvs
    have hps : par v = none := hPar.2.1
    refine ⟨[], tot, ?_, rfl, by simp [chainB], rfl⟩
    conv_lhs => rw [walkParents]
    simp [hps]
  | succ n ih =>
    intro v hv fuel hf acc tot
    obtain ⟨u, hu⟩ := hPar.2.2.2 v n hv
    obtain ⟨hadj, m, hdu, hdv⟩ := hPar.2.2.1 v u hu
    rw [hv, Option.some_inj] at hdv
    have hmn : m = n := by omega
    subst hmn
    cases fuel with
    | zero => omega
    | succ fuel' =>
      obtain ⟨dur, hdur⟩ := lookupDur_isSome_of_adjB routes u v hadj
      have hstep : walkParents routes par (fuel' + 1) v acc tot =
          walkParents routes par fuel' u (acc ++ [u]) (tot + dur) := by
        conv_lhs => rw [walkParents]
        simp [hu, hdur]
      obtain ⟨chain', tot', hw, hlen, hch, hlast⟩ :=
        ih u hdu fuel' (by omega) (acc ++ [u]) (tot + dur)
      refine ⟨u :: chain', tot', ?_, ?_, ?_, ?_⟩
      · rw [hstep, hw, List.append_assoc]
        rfl
      · simp [hlen]
      · have hrw : (v :: u :: chain').reverse = (u :: chain').reverse ++ [v] := by
          simp [List.reverse_cons]
        rw [hrw, chainB_snoc routes _ u v (by rw [List.getLast?_reverse]; rfl), hch, hadj]
        rfl
      · rw [List.getLast?_cons_cons]
        exact hlast

/-- The BFS start state satisfies the invariant. -/
theorem bfs_init_inv (routes : Routes) (s e : String) (hks : hasKey routes s = true) :
    BfsInv routes s e (fun v => if v = s then some 0 else none) (fun _ => none) [s] := by
  refine ⟨?_, ⟨?_, rfl, ?_, ?_⟩, ?_, ?_, ?_, ?_⟩
  · intro v n hv
    have hv' : (if v = s then some 0 else (none : Option Nat)) = some n := hv
    by_cases hvs : v = s
    · subst hvs
      rw [if_pos rfl, Option.some_inj] at hv'
      subst hv'
      constructor
      · exact ⟨[v], ⟨rfl, rfl, rfl⟩, rfl⟩
      · intro p hp
        obtain ⟨h1, -, -⟩ := hp
        cases p with
        | nil => cases h1
        | cons a q => simp
    · rw [if_neg hvs] at hv'
      cases hv'
  · show (if s = s then some 0 else (none : Option Nat)) = some 0
    rw [if_pos rfl]
  · intro v u hvu
    cases hvu
  · intro v n hv
    have hv' : (if v = s then some 0 else (none : Option Nat)) = some (n + 1) := hv
    by_cases hvs : v = s
    · rw [if_pos hvs] at hv'
      injection hv' with h
      omega
    · rw [if_neg hvs] at hv'
      cases hv'
  · refine ⟨0, [s], [], by simp, ?_, ?_⟩
    · intro v hv
      rw [List.mem_singleton] at hv
      subst hv
      show (if v = v then some 0 else (none : Option Nat)) = some 0
      rw [if_pos rfl]
    · intro v hv
      cases hv
  · intro u hu hnot
    exfalso
    have hu' : (if u = s then some 0 else (none : Option Nat)).isSome = true := hu
    by_cases hus : u = s
    · exact hnot (hus ▸ List.mem_singleton.mpr rfl)
    · rw [if_neg hus] at hu'
      cases hu'
  · intro v hv
    have hv' : (if v = s then some 0 else (none : Option Nat)).isSome = true := hv
    by_cases hvs : v = s
    · subst hvs
      exact hks
    · rw [if_neg hvs] at hv'
      cases hv'
  · intro hne
    show (if e = s then some 0 else (none : Option Nat)) = none
    rw [if_neg hne]

/-- C3 (amended): on a closed graph (the source precondition: every listed
neighbour is itself a key) and for distinct start and end, any path
`find_path` returns is a walk from start to end of minimum length; an
absent key or an unreachable end yields the no-route outcome; and a
reachable end is always found.  (The original claim also covered
start = end, where the code instead reports no route.) -/
theorem find_path_correct (routes : Routes) (s e : String)
    (hcl : Closed routes) (hne : s ≠ e) :
    (∀ p, find_path routes s e = some p →
      PathFrom routes s e p ∧ ∀ q, PathFrom routes s e q → p.length ≤ q.length) ∧
    ((hasKey routes s = false ∨ hasKey routes e = false) →
      find_path routes s e = none) ∧
    ((∀ p, ¬ PathFrom routes s e p) → find_path routes s e = none) ∧
    (hasKey routes s = true → hasKey routes e = true →
      (∃ p0, PathFrom routes s e p0) → ∃ p, find_path routes s e = some p) := by
  have hkeynone : (hasKey routes s = false ∨ hasKey routes e = false) →
      find_path routes s e = none := by
    intro h
    rcases h with h | h <;> simp [find_path, h]
  have hsound : ∀ p, find_path routes s e = some p →
      PathFrom routes s e p ∧ ∀ q, PathFrom routes s e q → p.length ≤ q.length := by
    intro p hp
    cases hks : hasKey routes s with
    | false => rw [hkeynone (Or.inl hks)] at hp; cases hp
    | true =>
    cases hke : hasKey routes e with
    | false => rw [hkeynone (Or.inr hke)] at hp; cases hp
    | true =>
    have hinv := bfs_init_inv routes s e hks
    simp only [find_path, hks, hke, Bool.not_true, Bool.or_self, Bool.false_eq_true,
      reduceIte] at hp
    cases hloop : bfsLoop routes e routes.length
        (fun v => if v = s then some 0 else none) (fun _ => none) [s] with
    | none => rw [hloop] at hp; cases hp
    | some res =>
      obtain ⟨df, parf, flag⟩ := res
      have hpost := bfsLoop_post routes s e routes.length _ _ [s] hinv hcl _ hloop
      rw [hloop] at hp
      cases flag with
      | false => simp at hp
      | true =>
        obtain ⟨n, hdfe⟩ := Option.isSome_iff_exists.mp (hpost.2.2.1 rfl)
        obtain ⟨⟨p0, hp0, hp0len⟩, hmin⟩ := hpost.1 e n hdfe
        obtain ⟨p1, hp1, hnd1, hle1⟩ :=
          exists_nodup_path routes s e p0.length p0 (le_refl _) hp0
        have hkeys1 := pathFrom_keys routes hcl p1 s hp1.1 hp1.2.2 hks
        have hlen1 := nodup_path_length_le routes p1 hnd1 hkeys1
        have hmin1 := hmin p1 hp1
        obtain ⟨chain, tot', hw, hclen, hch, hlast⟩ :=
          walkParents_spec routes s df parf hpost.1 hpost.2.1 n e hdfe
            routes.length (by omega) [e] 0
        simp only [hw, eq_self_iff_true, if_true, Option.some_inj] at hp
        subst hp
        have hpath : PathFrom routes s e ((e :: chain).reverse) := by
          refine ⟨?_, ?_, hch⟩
          · rw [List.head?_reverse]
            exact hlast
          · rw [List.getLast?_reverse]
            rfl
        refine ⟨hpath, ?_⟩
        intro q hq
        have hq' := hmin q hq
        have hplen : (([e] ++ chain).reverse).length = n + 1 := by
          simp [hclen]
        omega
  refine ⟨hsound, hkeynone, ?_, ?_⟩
  · intro hnone
    cases h : find_path routes s e with
    | none => rfl
    | some p => exact absurd (hsound p h).1 (hnone p)
  · intro hks hke hreach
    obtain ⟨p0, hp0⟩ := hreach
    have hinv := bfs_init_inv routes s e hks
    have hM : bfsMeasure routes (fun v => if v = s then some 0 else none) [s] ≤
        routes.length := by
      have hsK : s ∈ keysFinset routes :=
        List.mem_toFinset.mpr ((hasKey_iff_mem routes s).mp hks)
      have hD1 : 0 < ((keysFinset routes).filter
          (fun v => (if v = s then some 0 else (none : Option Nat)).isSome
            = true)).card := Finset.card_pos.mpr ⟨s, by
              exact Finset.mem_filter.mpr ⟨hsK, by simp⟩⟩
      have hKle : (keysFinset routes).card ≤ routes.length := by
        calc (keysFinset routes).card ≤ (routes.map Prod.fst).length :=
              List.toFinset_card_le _
          _ = routes.length := List.length_map _ _
      have hDle : ((keysFinset routes).filter
          (fun v => (if v = s then some 0 else (none : Option Nat)).isSome
            = true)).card ≤ (keysFinset routes).card := Finset.card_filter_le _ _
      rw [bfsMeasure]
      simp only [List.length_singleton]
      omega
    have htot := bfsLoop_total routes s e routes.length _ _ [s] hinv hcl hM
    obtain ⟨res, hloop⟩ := Option.isSome_iff_exists.mp htot
    obtain ⟨df, parf, flag⟩ := res
    have hpost := bfsLoop_post routes s e routes.length _ _ [s] hinv hcl _ hloop
    cases flag with
    | false =>
      exfalso
      have hde : df e = none := (hpost.2.2.2 rfl).1 (Ne.symm hne)
      have hscan := (hpost.2.2.2 rfl).2
      have hds : df s = some 0 := hpost.2.1.1
      exact no_reach_of_empty_queue routes s df hpost.1 hds hscan p0 e hde hp0
    | true =>
      obtain ⟨n, hdfe⟩ := Option.isSome_iff_exists.mp (hpost.2.2.1 rfl)
      obtain ⟨⟨q0, hq0, hq0len⟩, hmin⟩ := hpost.1 e n hdfe
      obtain ⟨q1, hq1, hnd1, hle1⟩ :=
        exists_nodup_path routes s e q0.length q0 (le_refl _) hq0
      have hkeys1 := pathFrom_keys routes hcl q1 s hq1.1 hq1.2.2 hks
      have hlen1 := nodup_path_length_le routes q1 hnd1 hkeys1
      have hmin1 := hmin q1 hq1
      obtain ⟨chain, tot', hw, hclen, hch, hlast⟩ :=
        walkParents_spec routes s df parf hpost.1 hpost.2.1 n e hdfe
          routes.length (by omega) [e] 0
      refine ⟨(e :: chain).reverse, ?_⟩
      simp only [find_path, hks, hke, Bool.not_true, Bool.or_self, Bool.false_eq_true,
        reduceIte, hloop, hw, eq_self_iff_true, if_true]
      rfl

/-- Witness for the amended C3 on the triangle graph: the shortest route
from A to B is the direct edge, shorter than the detour through C. -/
theorem find_path_correct_witness :
    List.length ["A", "B"] ≤ List.length ["A", "C", "B"] ∧
    find_path routesTri "A" "B" = some ["A", "B"] :=
  ⟨((find_path_correct routesTri "A" "B" (by decide) (by decide)).1 ["A", "B"]
      (by decide)).2 ["A", "C", "B"] (by decide), by decide⟩

/-! ## C2: the next-cycle wrap of the resolver -/

/-- C2: if the pair has rows (sorted by weekday then time) but none of
them lies lexicographically at or after the normalised earliest-allowed
stamp — no flight in the remainder of the current week — then the
resolver books the chronologically first row of the pair, adds exactly one
7-day period to the gap, and the booked absolute departure instant is
strictly after arrival plus layover. -/
theorem wrap_to_next_cycle (routes : Routes) (flights : List Flight)
    (o dd : String) (time_pos total_price : Int) (f0 : Flight) (tail : List Flight)
    (dur : Int)
    (hpl : pairFlights flights o dd = f0 :: tail)
    (hsorted : List.Pairwise flightLe (pairFlights flights o dd))
    (hwf : ∀ f ∈ pairFlights flights o dd, 1 ≤ f.week_day ∧ 0 ≤ f.time)
    (hnolex : ∀ f ∈ pairFlights flights o dd,
      f.week_day < (timedelta_to_day_hour_minutes (time_pos + 180)).1 ∨
      (f.week_day = (timedelta_to_day_hour_minutes (time_pos + 180)).1 ∧
        f.time < (timedelta_to_day_hour_minutes (time_pos + 180)).2.1 * 60 +
          (timedelta_to_day_hour_minutes (time_pos + 180)).2.2))
    (hld : lookupDur routes o dd = some dur) :
    (∀ f ∈ pairFlights flights o dd, flightLe f0 f) ∧
    find_nearest_flight routes flights o dd time_pos total_price =
      some (" " ++ o ++ " " ++ week_days f0.week_day ++ " " ++
          timedelta_to_formatted_string f0.time,
        time_pos + 180 +
          (f0.week_day * 1440 + f0.time -
            ((timedelta_to_day_hour_minutes (time_pos + 180)).1 * 1440 +
              (timedelta_to_day_hour_minutes (time_pos + 180)).2.1 * 60 +
              (timedelta_to_day_hour_minutes (time_pos + 180)).2.2) + 7 * 1440) + dur,
        total_price + f0.price) ∧
    time_pos + 180 <
      time_pos + 180 +
        (f0.week_day * 1440 + f0.time -
          ((timedelta_to_day_hour_minutes (time_pos + 180)).1 * 1440 +
            (timedelta_to_day_hour_minutes (time_pos + 180)).2.1 * 60 +
            (timedelta_to_day_hour_minutes (time_pos + 180)).2.2) + 7 * 1440) := by
  have hnorm := timedelta_norm_facts (time_pos + 180)
  have hsw : sameWeek flights o dd (time_pos + 180) = [] := by
    rw [sameWeek, List.filter_eq_nil_iff]
    intro f hf
    simp only [Bool.and_eq_true, decide_eq_true_eq, not_and]
    intro h1 h2
    rcases hnolex f hf with h | ⟨heq, hlt⟩ <;> omega
  have hf0 : f0 ∈ pairFlights flights o dd := by
    rw [hpl]
    exact List.mem_cons_self f0 tail
  obtain ⟨hwd0, hft0⟩ := hwf f0 hf0
  refine ⟨?_, ?_, ?_⟩
  · intro f hf
    rw [hpl] at hsorted hf
    cases hf with
    | head => exact Or.inr ⟨rfl, le_refl _⟩
    | tail _ hf' => exact (List.pairwise_cons.mp hsorted).1 f hf'
  · exact find_nearest_flight_wrap_eq routes flights o dd time_pos total_price f0 tail
      dur hsw hpl hld
  · omega

/-- Witness for C2: a single B→C flight Monday 05:00, arrival Monday
10:00, earliest allowed Monday 13:00 — the resolver wraps to next
Monday 05:00. -/
theorem wrap_to_next_cycle_witness :
    find_nearest_flight routesBC1 flightsMon "B" "C" 2040 0 =
      some (" B Понедельник 05:00", 11880, 99) := by
  rw [(wrap_to_next_cycle routesBC1 flightsMon "B" "C" 2040 0 ⟨"B", "C", 1, 300, 99⟩
    [] 60 (by decide) (by decide) (by decide) (by decide) (by decide)).2.1]
  decide

/-! ## C7: every itinerary spends at least the airborne time -/

/-- Whatever branch the resolver takes, the running instant it returns is
at least the incoming instant plus the flight duration of the edge: the
same-week gap is nonnegative by the filter condition, and the wrapped gap
is positive because the weekday components are bounded. -/
theorem find_nearest_flight_advances (routes : Routes) (flights : List Flight)
    (o dd : String) (t p : Int)
    (hwf : ∀ f ∈ flights, 1 ≤ f.week_day ∧ 0 ≤ f.time)
    (res : String × Int × Int)
    (hres : find_nearest_flight routes flights o dd t p = some res) :
    ∃ dur, lookupDur routes o dd = some dur ∧ t + dur ≤ res.2.1 := by
  have hnorm := timedelta_norm_facts (t + 180)
  obtain ⟨rs, rt, rp⟩ := res
  cases hld : lookupDur routes o dd with
  | none =>
    rw [find_nearest_flight_none_of_no_dur routes flights o dd t p hld] at hres
    cases hres
  | some dur =>
    refine ⟨dur, rfl, ?_⟩
    cases hswl : sameWeek flights o dd (t + 180) with
    | cons f tail =>
      rw [find_nearest_flight_same_week_eq routes flights o dd t p f tail dur hswl hld]
        at hres
      have hmem : f ∈ sameWeek flights o dd (t + 180) := by
        rw [hswl]; exact List.mem_cons_self f tail
      have hpred := (List.mem_filter.mp hmem).2
      simp only [Bool.and_eq_true, decide_eq_true_eq] at hpred
      simp only [Option.some_inj, Prod.mk.injEq] at hres
      obtain ⟨-, h2, -⟩ := hres
      simp only
      omega
    | nil =>
      cases hpl : pairFlights flights o dd with
      | nil =>
        rw [find_nearest_flight_none_of_empty routes flights o dd t p hpl] at hres
        cases hres
      | cons f tail =>
        rw [find_nearest_flight_wrap_eq routes flights o dd t p f tail dur hswl hpl hld]
          at hres
        have hfl : f ∈ flights := by
          have hm : f ∈ pairFlights flights o dd := by
            rw [hpl]; exact List.mem_cons_self f tail
          exact (List.mem_filter.mp hm).1
        obtain ⟨hwd, hft⟩ := hwf f hfl
        simp only [Option.some_inj, Prod.mk.injEq] at hres
        obtain ⟨-, h2, -⟩ := hres
        simp only
        omega

/-- Along the leg loop the running instant grows by at least the airborne
time of the remaining chain. -/
theorem find_flights_legs_advance (routes : Routes) (flights : List Flight)
    (hwf : ∀ f ∈ flights, 1 ≤ f.week_day ∧ 0 ≤ f.time) :
    ∀ rest cf t p acc res ab,
      find_flights_legs routes flights cf rest t p acc = some res →
      airborneTime routes (cf :: rest) = some ab →
      t + ab ≤ res.2.1 := by
  intro rest
  induction rest with
  | nil =>
    intro cf t p acc res ab hres hab
    simp only [find_flights_legs, Option.some_inj] at hres
    simp only [airborneTime, Option.some_inj] at hab
    rw [← hres, ← hab]
    simp
  | cons ct rest' ih =>
    intro cf t p acc res ab hres hab
    simp only [find_flights_legs] at hres
    cases hnf : find_nearest_flight routes flights cf ct t p with
    | none => rw [hnf] at hres; cases hres
    | some r =>
      rw [hnf] at hres
      obtain ⟨s1, t1, p1⟩ := r
      simp only [airborneTime] at hab
      cases hld : lookupDur routes cf ct with
      | none => rw [hld] at hab; cases hab
      | some d0 =>
        cases hat : airborneTime routes (ct :: rest') with
        | none => rw [hld, hat] at hab; cases hab
        | some ab' =>
          rw [hld, hat] at hab
          injection hab with hab'
          obtain ⟨dur, hdur, hadv⟩ :=
            find_nearest_flight_advances routes flights cf ct t p hwf _ hnf
          rw [hld] at hdur
          injection hdur with hd
          have hrec := ih ct t1 p1 (acc ++ s1) res ab' hres hat
          simp only at hadv
          omega

/-- A successfully assembled itinerary travels at least the airborne time
of its path. -/
theorem find_flights_option_travel (routes : Routes) (flights : List Flight)
    (c0 c1 : String) (rest : List String) (f : Flight) (it : Itinerary) (ab : Int)
    (hwf : ∀ f ∈ flights, 1 ≤ f.week_day ∧ 0 ≤ f.time)
    (hres : find_flights_option routes flights c0 c1 rest f = some it)
    (hab : airborneTime routes (c0 :: c1 :: rest) = some ab) :
    ab ≤ it.travel := by
  simp only [find_flights_option] at hres
  simp only [airborneTime] at hab
  cases hld : lookupDur routes c0 c1 with
  | none => rw [hld] at hres; cases hres
  | some d0 =>
    simp only [hld] at hres
    cases hat : airborneTime routes (c1 :: rest) with
    | none => rw [hld, hat] at hab; cases hab
    | some ab' =>
      rw [hld, hat] at hab
      injection hab with hab'
      cases hlegs : find_flights_legs routes flights c1 rest
          (f.week_day * 1440 + f.time % 1440 * 60 / 3600 * 60 +
            f.time % 1440 * 60 / 60 % 60 + d0) f.price
          (c0 ++ " " ++ week_days f.week_day ++ " " ++
            (format02 (f.time % 1440 * 60 / 3600) ++ ":" ++
              format02 (f.time % 1440 * 60 / 60 % 60))) with
      | none => rw [hlegs] at hres; cases hres
      | some r =>
        rw [hlegs] at hres
        obtain ⟨desc, tend, pend⟩ := r
        have hadv := find_flights_legs_advance routes flights hwf rest c1 _ _ _ _ ab'
          hlegs hat
        injection hres with hres'
        rw [← hres']
        simp only at hadv ⊢
        omega

/-- Every itinerary in a successful assembly travels at least the airborne
time. -/
theorem find_flights_all_travel (routes : Routes) (flights : List Flight)
    (c0 c1 : String) (rest : List String) (ab : Int)
    (hwf : ∀ f ∈ flights, 1 ≤ f.week_day ∧ 0 ≤ f.time)
    (hab : airborneTime routes (c0 :: c1 :: rest) = some ab) :
    ∀ fl l, find_flights_all routes flights c0 c1 rest fl = some l →
      ∀ it ∈ l, ab ≤ it.travel := by
  intro fl
  induction fl with
  | nil =>
    intro l h it hit
    simp only [find_flights_all, Option.some_inj] at h
    rw [← h] at hit
    cases hit
  | cons f fs ih =>
    intro l h it hit
    simp only [find_flights_all] at h
    cases hopt : find_flights_option routes flights c0 c1 rest f with
    | none => rw [hopt] at h; cases h
    | some it0 =>
      rw [hopt] at h
      cases hrec : find_flights_all routes flights c0 c1 rest fs with
      | none => rw [hrec] at h; cases h
      | some l' =>
        rw [hrec] at h
        injection h with h'
        rw [← h'] at hit
        cases hit with
        | head =>
          exact find_flights_option_travel routes flights c0 c1 rest f _ ab hwf hopt hab
        | tail _ htail => exact ih l' hrec it htail

/-- C7: on a path of length at least 2 with a well-formed timetable, the
assembler returns at most one itinerary per first-leg timetable row, and
every returned itinerary has elapsed time at least the sum of the flight
durations along the path. -/
theorem assemble_options_bound (routes : Routes) (flights : List Flight)
    (c0 c1 : String) (rest : List String) (l : List Itinerary) (ab : Int)
    (hwf : ∀ f ∈ flights, 1 ≤ f.week_day ∧ 0 ≤ f.time)
    (hres : find_flights routes flights (c0 :: c1 :: rest) = some l)
    (hab : airborneTime routes (c0 :: c1 :: rest) = some ab) :
    l.length ≤ (pairFlights flights c0 c1).length ∧ ∀ it ∈ l, ab ≤ it.travel := by
  simp only [find_flights] at hres
  constructor
  · exact le_of_eq (find_flights_all_length routes flights c0 c1 rest _ l hres)
  · exact find_flights_all_travel routes flights c0 c1 rest ab hwf hab _ l hres

/-- Witness for C7: the single-leg path A,B with one A→B departure gives
one itinerary whose elapsed time (50) meets the airborne time (50). -/
theorem assemble_options_bound_witness :
    List.length [(⟨"A Понедельник 00:00", 10, 50⟩ : Itinerary)] ≤
      (pairFlights flightsW7 "A" "B").length ∧
    (50 : Int) ≤ (⟨"A Понедельник 00:00", 10, 50⟩ : Itinerary).travel :=
  ⟨(assemble_options_bound routesW7 flightsW7 "A" "B" [] _ 50 (by decide)
      (by decide) (by decide)).1,
    (assemble_options_bound routesW7 flightsW7 "A" "B" [] _ 50 (by decide)
      (by decide) (by decide)).2 _ (List.mem_singleton.mpr rfl)⟩

end PathFinder
